import Mathlib

/-!
Verification development for the word-search-game repository.

Shallow embedding of the core TypeScript modules:
  * src/lib/wordSearch.ts   (WordSearchGenerator, Trie)
  * src/lib/dsa/WordSearchSolver.ts   (WordSearchSolver)
  * src/hooks/useComputerOpponent.ts  (turn scheduler, as a step relation)

Modelling conventions:
  * A JavaScript string is a list of UTF-16 code units, modelled as
    a value of JStr, i.e. a list of natural numbers; String.prototype.toUpperCase
    is modelled on the ASCII range (the only range the game uses).
  * A grid cell is an Option Nat: none models the empty string cell,
    some c models a one-character cell.
  * Math.random draws are passed in explicitly: placement attempts are
    a list of (direction, row draw, col draw) triples, the noise-letter
    source is a function from the cell position to an index below 26,
    and the solver's position shuffle is an explicit list of points.
  * Recursion that terminates via the finiteness of the grid in the
    source (the DFS visited set) is given explicit fuel; top-level
    entry points pass rows*cols+1, which is never exhausted because a
    simple path in the grid has at most rows*cols cells.
  * The source's mutable state (solutions, foundWords, attempts) is
    threaded through explicitly.
-/

/-- A JavaScript string: list of UTF-16 code units. -/
abbrev JStr := List Nat

/-- ASCII model of the per-character effect of String.prototype.toUpperCase. -/
def upChar (c : Nat) : Nat := if 97 ≤ c ∧ c ≤ 122 then c - 32 else c

/-- Model of String.prototype.toUpperCase, code unit by code unit. -/
def upper (s : JStr) : JStr := s.map upChar

/-- Grid cell: none is the TS empty string '', some c a one-letter string. -/
abbrev Cell := Option Nat

/-- The grid: string[][] in the source. -/
abbrev Grid := List (List Cell)

/-- Integer grid coordinates, as in the source's Point interface. -/
structure Point where
  row : Int
  col : Int
deriving DecidableEq

/-- The source's WordLocation: field end is renamed endPt (end is a Lean keyword). -/
structure WordLocation where
  word : JStr
  start : Point
  endPt : Point
deriving DecidableEq

/-- The source's GridState. -/
structure GridState where
  grid : Grid
  words : List WordLocation

/-- The four generator directions, src/lib/wordSearch.ts line 2. -/
inductive Direction where
  | HORIZONTAL
  | VERTICAL
  | DIAGONAL_DOWN
  | DIAGONAL_UP
deriving DecidableEq

/-- Per-step row/col increment of each direction: the source adds i, subtracts i,
or leaves the coordinate unchanged in each branch; this is the same computed as
start + step * i. DIAGONAL_UP moves up-right. -/
def dirStep : Direction → Int × Int
  | .HORIZONTAL => (0, 1)
  | .VERTICAL => (1, 0)
  | .DIAGONAL_DOWN => (1, 1)
  | .DIAGONAL_UP => (-1, 1)

/-- grid[r][c], total with default none; the source only ever reads in bounds. -/
def gridGet (g : Grid) (r c : Int) : Cell :=
  if 0 ≤ r ∧ 0 ≤ c then (g.getD r.toNat []).getD c.toNat none else none

/-- grid[r][c] = v; out-of-range writes are dropped (the source never makes them). -/
def setCell (g : Grid) (r c : Int) (v : Cell) : Grid :=
  if 0 ≤ r ∧ 0 ≤ c then g.set r.toNat ((g.getD r.toNat []).set c.toNat v) else g

/-- Bounds predicate 0 <= r < rows, 0 <= c < cols. -/
def inB (rows cols : Nat) (r c : Int) : Prop :=
  0 ≤ r ∧ r < (rows : Int) ∧ 0 ≤ c ∧ c < (cols : Int)

instance (rows cols : Nat) (r c : Int) : Decidable (inB rows cols r c) := by
  unfold inB; infer_instance

/-- Array(rows).fill(null).map(() => Array(cols).fill('')). -/
def emptyGrid (rows cols : Nat) : Grid :=
  List.replicate rows (List.replicate cols none)

/-- Well-formedness: the grid really is rows x cols. -/
def WFGrid (g : Grid) (rows cols : Nat) : Prop :=
  g.length = rows ∧ ∀ row ∈ g, row.length = cols

/-- Support of Math.floor(Math.random() * n): 0 when n = 0, else any value below n. -/
def drawIdx (n i : Nat) : Int := if n = 0 then 0 else ((i % n : Nat) : Int)

/-- The cell the i-th letter of a word starting at (row, col) in direction d
occupies: start plus i direction steps. -/
def cellPt (row col : Int) (d : Direction) (i : Nat) : Point :=
  ⟨row + (dirStep d).1 * (i : Int), col + (dirStep d).2 * (i : Int)⟩

/-- WordSearchGenerator.canPlaceWord, src/lib/wordSearch.ts lines 75-103. -/
def canPlaceWord (rows cols : Nat) (g : Grid) (w : JStr) (row col : Int)
    (d : Direction) : Bool :=
  -- endRow = row + dr * (len - 1), endCol = col + dc * (len - 1), over Int
  if row + (dirStep d).1 * ((w.length : Int) - 1) < 0 ∨
     row + (dirStep d).1 * ((w.length : Int) - 1) ≥ (rows : Int) ∨
     col + (dirStep d).2 * ((w.length : Int) - 1) < 0 ∨
     col + (dirStep d).2 * ((w.length : Int) - 1) ≥ (cols : Int) then
    false
  else
    (List.range w.length).all fun (i : Nat) =>
      match gridGet g (cellPt row col d i).row (cellPt row col d i).col with
      | none => true
      | some ch => ch == w.getD i 0

/-- The write loop of insertWord: letters 0..n-1 of w along direction d. -/
def writeWord (g : Grid) (w : JStr) (row col : Int) (d : Direction) : Nat → Grid
  | 0 => g
  | n + 1 =>
    let g' := writeWord g w row col d n
    setCell g' (cellPt row col d n).row (cellPt row col d n).col (some (w.getD n 0))

/-- WordSearchGenerator.insertWord, lines 105-126: writes the letters and returns
the realized end point (which stays at the start for an empty word). -/
def insertWord (g : Grid) (w : JStr) (row col : Int) (d : Direction) :
    Grid × Point :=
  (writeWord g w row col d w.length,
   if w.length = 0 then ⟨row, col⟩ else cellPt row col d (w.length - 1))

/-- One random attempt of placeWord: direction and the two position draws. -/
abbrev Attempt := Direction × Nat × Nat

/-- Retry loop body of WordSearchGenerator.placeWord, lines 55-73. -/
def placeWordGo (rows cols : Nat) (g : Grid) (w : JStr) :
    List Attempt → Option (Grid × WordLocation)
  | [] => none
  | (d, i, j) :: rest =>
    -- startRow, startCol are the two Math.random draws
    if canPlaceWord rows cols g w (drawIdx rows i) (drawIdx cols j) d then
      some ((insertWord g w (drawIdx rows i) (drawIdx cols j) d).1,
        ⟨w, ⟨drawIdx rows i, drawIdx cols j⟩,
         (insertWord g w (drawIdx rows i) (drawIdx cols j) d).2⟩)
    else
      placeWordGo rows cols g w rest

/-- WordSearchGenerator.placeWord: at most 100 random attempts. -/
def placeWord (rows cols : Nat) (g : Grid) (w : JStr)
    (attempts : List Attempt) : Option (Grid × WordLocation) :=
  placeWordGo rows cols g w (attempts.take 100)

/-- Array.from(new Set(words)): keep the first occurrence of each string. -/
def dedupGo : List JStr → List JStr → List JStr
  | _, [] => []
  | seen, w :: ws =>
    if w ∈ seen then dedupGo seen ws else w :: dedupGo (w :: seen) ws

/-- De-duplication by exact string identity (JS Set), insertion order kept. -/
def dedupJS (ws : List JStr) : List JStr := dedupGo [] ws

/-- Stable insertion of a word into a list sorted by descending length. -/
def insertByLen (w : JStr) : List JStr → List JStr
  | [] => [w]
  | x :: xs => if w.length < x.length then x :: insertByLen w xs else w :: x :: xs

/-- uniqueWords.sort((a, b) => b.length - a.length): stable descending by length. -/
def sortWords : List JStr → List JStr
  | [] => []
  | w :: ws => insertByLen w (sortWords ws)

/-- Index i picks the letter at "ABCDEFGHIJKLMNOPQRSTUVWXYZ"[i]: code 65 + i. -/
def letterAt (i : Fin 26) : Nat := 65 + i.val

/-- One row of WordSearchGenerator.fillEmptyCells: replace empty cells with
noise letters drawn by f at the cell's coordinates. -/
def fillRow (f : Nat → Nat → Fin 26) (r : Nat) : Nat → List Cell → List Cell
  | _, [] => []
  | c, cell :: rest =>
    (match cell with
     | none => some (letterAt (f r c))
     | some v => some v) :: fillRow f r (c + 1) rest

/-- Rows part of fillEmptyCells (lines 128-137); the source loops r < rows,
c < cols over a grid that is exactly rows x cols. -/
def fillRows (f : Nat → Nat → Fin 26) : Nat → Grid → Grid
  | _, [] => []
  | r, row :: rest => fillRow f r 0 row :: fillRows f (r + 1) rest

/-- WordSearchGenerator.fillEmptyCells. -/
def fillEmptyCells (g : Grid) (f : Nat → Nat → Fin 26) : Grid := fillRows f 0 g

/-- Placement loop of generate (lines 40-47): one attempt list per word. -/
def generateLoop (rows cols : Nat) :
    List JStr → List (List Attempt) → Grid → Grid × List WordLocation
  | [], _, g => (g, [])
  | w :: ws, rands, g =>
    match placeWord rows cols g (upper w) (rands.headD []) with
    | some (g', loc) =>
      let r := generateLoop rows cols ws rands.tail g'
      (r.1, loc :: r.2)
    | none => generateLoop rows cols ws rands.tail g

/-- WordSearchGenerator.generate, lines 31-53. -/
def generate (rows cols : Nat) (words : List JStr)
    (rand : List (List Attempt)) (fillRand : Nat → Nat → Fin 26) : GridState :=
  let sortedWords := sortWords (dedupJS words)
  let r := generateLoop rows cols sortedWords rand (emptyGrid rows cols)
  ⟨fillEmptyCells r.1 fillRand, r.2⟩

/-- The i-th point on the straight unit-step line from s towards e. -/
def linePt (s e : Point) (i : Nat) : Point :=
  ⟨s.row + (e.row - s.row).sign * (i : Int), s.col + (e.col - s.col).sign * (i : Int)⟩

/-- Reading the grid cells along the straight line from L.start to L.end,
one cell per letter of L.word. -/
def lineRead (g : Grid) (L : WordLocation) : List Cell :=
  (List.range L.word.length).map fun i =>
    gridGet g (linePt L.start L.endPt i).row (linePt L.start L.endPt i).col

/-- A word location realized on the grid: some generator direction d places the
word from start to end, every letter cell is in bounds and holds the word's
letter. -/
def PlacedOk (rows cols : Nat) (g : Grid) (L : WordLocation) : Prop :=
  ∃ d : Direction,
    L.endPt = (if L.word.length = 0 then L.start
               else cellPt L.start.row L.start.col d (L.word.length - 1)) ∧
    ∀ i < L.word.length,
      inB rows cols (cellPt L.start.row L.start.col d i).row
        (cellPt L.start.row L.start.col d i).col ∧
      gridGet g (cellPt L.start.row L.start.col d i).row
        (cellPt L.start.row L.start.col d i).col = some (L.word.getD i 0)

/-- TrieNode, src/lib/wordSearch.ts lines 153-157; the JS Map is an ordered
association list keyed by the character code. -/
inductive TrieNode where
  | mk (children : List (Nat × TrieNode)) (isEndOfWord : Bool) (word : Option JStr)

/-- TrieNode.children. -/
def TrieNode.children : TrieNode → List (Nat × TrieNode)
  | .mk ch _ _ => ch

/-- TrieNode.isEndOfWord. -/
def TrieNode.isEndOfWord : TrieNode → Bool
  | .mk _ e _ => e

/-- TrieNode.word. -/
def TrieNode.word : TrieNode → Option JStr
  | .mk _ _ w => w

/-- Trie.createNode, lines 166-172. -/
def createNode : TrieNode := .mk [] false none

/-- Map.get on the children list. -/
def findChild : List (Nat × TrieNode) → Nat → Option TrieNode
  | [], _ => none
  | (k, t) :: rest, c => if k = c then some t else findChild rest c

/-- Map.set on the children list: replace in place or append. -/
def setChild : List (Nat × TrieNode) → Nat → TrieNode → List (Nat × TrieNode)
  | [], c, t => [(c, t)]
  | (k, t') :: rest, c, t =>
    if k = c then (k, t) :: rest else (k, t') :: setChild rest c t

/-- The walk of Trie.insert (lines 178-191) over the remaining characters;
full is the complete uppercased word stored at the terminal node. -/
def insertAux : List Nat → JStr → TrieNode → TrieNode
  | [], full, .mk ch _ _ => .mk ch true (some full)
  | c :: cs, full, .mk ch e w =>
    .mk (setChild ch c (insertAux cs full ((findChild ch c).getD createNode))) e w

/-- Trie.insert: uppercases, then walks/creates one node per character. -/
def Trie.insert (t : TrieNode) (w : JStr) : TrieNode := insertAux (upper w) (upper w) t

/-- Trie.traverse, lines 221-232. -/
def traverse : TrieNode → JStr → Option TrieNode
  | t, [] => some t
  | .mk ch _ _, c :: cs =>
    match findChild ch c with
    | none => none
    | some t' => traverse t' cs

/-- Trie.startsWith, lines 207-209. -/
def Trie.startsWith (t : TrieNode) (p : JStr) : Bool := (traverse t (upper p)).isSome

/-- Trie.getNode, lines 214-216. -/
def Trie.getNode (t : TrieNode) (s : JStr) : Option TrieNode := traverse t (upper s)

/-- Trie.fromWords, lines 238-244. -/
def Trie.fromWords (ws : List JStr) : TrieNode := ws.foldl Trie.insert createNode

/-- Boolean prefix test on code-unit lists (for specification statements). -/
def isPreB : JStr → JStr → Bool
  | [], _ => true
  | _ :: _, [] => false
  | a :: p, b :: w => a == b && isPreB p w

-- ------------------- WordSearchSolver (src/lib/dsa/WordSearchSolver.ts) ----

/-- A cell as the string it contributes to the DFS word: '' or one character. -/
def cellStr : Cell → JStr
  | none => []
  | some c => [c]

/-- The 8 DFS directions, WordSearchSolver.ts lines 36-45, in source order. -/
def DIR8 : List (Int × Int) :=
  [(-1, -1), (-1, 0), (-1, 1), (0, -1), (0, 1), (1, -1), (1, 0), (1, 1)]

/-- FoundWord, lines 28-33; field end renamed endPt. -/
structure FoundWord where
  word : JStr
  start : Point
  endPt : Point
  path : List Point
deriving DecidableEq

/-- The solver's mutable pair (foundWords, solutions). -/
structure SolveState where
  found : List JStr
  sols : List FoundWord
deriving DecidableEq

/-- The found-a-word condition shared by both DFS variants:
trieNode.isEndOfWord && trieNode.word && !excluded.has(trieNode.word).
The middle conjunct is JS truthiness: non-null and non-empty. -/
def recWord (n : TrieNode) (excl : List JStr) : Option JStr :=
  match n.word with
  | some wd =>
    if n.isEndOfWord = true ∧ wd ≠ [] ∧ wd ∉ excl then some wd else none
  | none => none

/-- WordSearchSolver.dfs, lines 191-236 (the findAllWords variant), with
explicit fuel; the visited set bounds real recursion depth by rows*cols, so
the top-level fuel rows*cols+1 is never exhausted. -/
def dfsAll (g : Grid) (t : TrieNode) (rows cols : Nat) :
    Nat → Int → Int → JStr → List Point → List Point → SolveState → SolveState
  | 0, _, _, _, _, _, s => s
  | fuel + 1, row, col, cur, path, visited, s =>
    if ¬ inB rows cols row col then s
    else if (⟨row, col⟩ : Point) ∈ visited then s
    else
      match Trie.getNode t (cur ++ cellStr (gridGet g row col)) with
      | none => s
      | some n =>
        let s1 :=
          match recWord n s.found with
          | some wd =>
            SolveState.mk (s.found ++ [wd])
              (s.sols ++ [⟨wd, path.headD ⟨row, col⟩, ⟨row, col⟩,
                path ++ [⟨row, col⟩]⟩])
          | none => s
        DIR8.foldl
          (fun st dir =>
            dfsAll g t rows cols fuel (row + dir.1) (col + dir.2)
              (cur ++ cellStr (gridGet g row col)) (path ++ [⟨row, col⟩])
              ((⟨row, col⟩ : Point) :: visited) st)
          s1

/-- this.rows = grid.length. -/
def solverRows (g : Grid) : Nat := g.length

/-- this.cols = grid[0]?.length || 0. -/
def solverCols (g : Grid) : Nat := (g.headD []).length

/-- WordSearchSolver.findAllWords, lines 68-79: row-major scan. -/
def findAllWords (g : Grid) (ws : List JStr) : List FoundWord :=
  ((List.range (solverRows g)).foldl
    (fun s (r : Nat) =>
      (List.range (solverCols g)).foldl
        (fun s (c : Nat) =>
          dfsAll g (Trie.fromWords ws) (solverRows g) (solverCols g)
            (solverRows g * solverCols g + 1) (r : Int) (c : Int) [] [] [] s)
        s)
    (SolveState.mk [] [])).sols

/-- The mutable pair (attempts, found) of searchFromCell. -/
structure SearchState where
  attempts : Nat
  found : Option FoundWord
deriving DecidableEq

/-- The inner closure dfs of WordSearchSolver.searchFromCell, lines 130-182:
budget-checked, attempt-counting DFS; returns whether a word was found. -/
def sdfs (g : Grid) (t : TrieNode) (rows cols : Nat) (excl : List JStr)
    (maxA : Nat) :
    Nat → Int → Int → JStr → List Point → List Point → SearchState →
      Bool × SearchState
  | 0, _, _, _, _, _, s => (false, s)
  | fuel + 1, row, col, cur, path, visited, s =>
    if maxA ≤ s.attempts then (false, s)
    else
      -- attempts++ happens before the bounds and visited checks
      if ¬ inB rows cols row col then (false, ⟨s.attempts + 1, s.found⟩)
      else if (⟨row, col⟩ : Point) ∈ visited then (false, ⟨s.attempts + 1, s.found⟩)
      else
        match Trie.getNode t (cur ++ cellStr (gridGet g row col)) with
        | none => (false, ⟨s.attempts + 1, s.found⟩)
        | some n =>
          match recWord n excl with
          | some wd =>
            (true, ⟨s.attempts + 1,
              some ⟨wd, path.headD ⟨row, col⟩, ⟨row, col⟩, path ++ [⟨row, col⟩]⟩⟩)
          | none =>
            DIR8.foldl
              (fun acc dir =>
                if acc.1 then acc
                else
                  sdfs g t rows cols excl maxA fuel (row + dir.1) (col + dir.2)
                    (cur ++ cellStr (gridGet g row col)) (path ++ [⟨row, col⟩])
                    ((⟨row, col⟩ : Point) :: visited) acc.2)
              (false, ⟨s.attempts + 1, s.found⟩)

/-- WordSearchSolver.searchFromCell, lines 121-186. -/
def searchFromCell (g : Grid) (t : TrieNode) (rows cols : Nat)
    (excl : List JStr) (maxA : Nat) (row col : Int) : SearchState :=
  (sdfs g t rows cols excl maxA (rows * cols + 1) row col [] [] [] ⟨0, none⟩).2

/-- The starting-cell loop of findNextWord, lines 99-113, threading the
global attempt budget. -/
def findNextLoop (g : Grid) (t : TrieNode) (rows cols : Nat)
    (alreadyFound : List JStr) (maxA : Nat) :
    List Point → Nat → Option FoundWord × Nat
  | [], att => (none, att)
  | p :: ps, att =>
    if maxA ≤ att then (none, att)
    else
      match searchFromCell g t rows cols alreadyFound (maxA - att) p.row p.col with
      | ⟨attUsed, some f⟩ =>
        if f.word ∉ alreadyFound then (some f, att + attUsed)
        else findNextLoop g t rows cols alreadyFound maxA ps (att + attUsed)
      | ⟨attUsed, none⟩ =>
        findNextLoop g t rows cols alreadyFound maxA ps (att + attUsed)

/-- WordSearchSolver.findNextWord, lines 89-116, instrumented to also return
the total number of DFS node visits consumed in the call. The shuffled
starting positions are an explicit argument. -/
def findNextWordAux (g : Grid) (ws : List JStr) (positions : List Point)
    (alreadyFound : List JStr) (maxAttempts : Nat) : Option FoundWord × Nat :=
  findNextLoop g (Trie.fromWords ws) (solverRows g) (solverCols g)
    alreadyFound maxAttempts positions 0

/-- WordSearchSolver.findNextWord proper: just the found word. -/
def findNextWord (g : Grid) (ws : List JStr) (positions : List Point)
    (alreadyFound : List JStr) (maxAttempts : Nat) : Option FoundWord :=
  (findNextWordAux g ws positions alreadyFound maxAttempts).1

/-- The row-major cell list of getShuffledPositions before shuffling,
lines 241-254; the Fisher-Yates shuffle yields some permutation of it. -/
def allPositions (rows cols : Nat) : List Point :=
  (List.range rows).flatMap
    (fun r => (List.range cols).map (fun c => Point.mk (r : Int) (c : Int)))

-- ------------------- useComputerOpponent (src/hooks/useComputerOpponent.ts) --

/-- A timer armed by the hook: its id and the captured already-found list
[...playerFoundWords, ...cpuFoundWords]. -/
structure TimerRec where
  id : Nat
  allFound : List JStr
deriving DecidableEq

/-- The hook's state plus the environment bookkeeping for its timers:
pendingRef models turnTimeoutRef.current, armed the timers ever created by
setTimeout, cancelled those passed to clearTimeout, fired those whose
callback ran, prevCleanup whether the previous effect registered a cleanup,
events the onCpuFoundWord invocations (tagged by timer id). -/
structure HookState where
  pendingRef : Option Nat
  armed : List TimerRec
  cancelled : List Nat
  fired : List Nat
  prevCleanup : Bool
  events : List (Nat × WordLocation)
  nextId : Nat
deriving DecidableEq

/-- One scheduler event: a React re-render with fresh prop values, or the
elapse of a timer's delay. -/
inductive HookStep where
  | render (isCpuTurn gameActive : Bool) (playerFound cpuFound : List JStr)
  | fire (id : Nat)
deriving DecidableEq

/-- What the deferred callback does (lines 59-77): findNextWord with the
captured found lists and budget 500; a WordLocation only when it succeeds. -/
def timerAction (g : Grid) (ws : List JStr) (positions : List Point)
    (tr : TimerRec) : Option WordLocation :=
  match findNextWord g ws positions tr.allFound 500 with
  | some f => some ⟨f.word, f.start, f.endPt⟩
  | none => none

/-- A re-render: run the previous effect's cleanup (clearTimeout on the ref,
lines 79-83), then the effect body (lines 43-77): when it is not the CPU's
turn or the game is inactive, clear and null any pending timer and register
no cleanup; otherwise arm a fresh timer capturing the current found lists.
The solver instance is assumed initialized (grid and words fixed). -/
def hookRender (ict ga : Bool) (pf cf : List JStr) (s : HookState) : HookState :=
  if ict = true ∧ ga = true then
    HookState.mk (some s.nextId) (TimerRec.mk s.nextId (pf ++ cf) :: s.armed)
      (if s.prevCleanup then
        match s.pendingRef with
        | some t => t :: s.cancelled
        | none => s.cancelled
       else s.cancelled)
      s.fired true s.events (s.nextId + 1)
  else
    match s.pendingRef with
    | some t =>
      HookState.mk none s.armed
        (t :: (if s.prevCleanup then
          match s.pendingRef with
          | some t' => t' :: s.cancelled
          | none => s.cancelled
         else s.cancelled))
        s.fired false s.events s.nextId
    | none =>
      HookState.mk none s.armed
        (if s.prevCleanup then
          match s.pendingRef with
          | some t' => t' :: s.cancelled
          | none => s.cancelled
         else s.cancelled)
        s.fired false s.events s.nextId

/-- A timer's delay elapsing: the callback runs only if the timer was armed,
never cleared, and has not already run (setTimeout semantics); on success it
reports exactly one WordLocation through onCpuFoundWord. -/
def hookFire (g : Grid) (ws : List JStr) (positions : List Point) (id : Nat)
    (s : HookState) : HookState :=
  match s.armed.find? (fun tr => tr.id == id) with
  | none => s
  | some tr =>
    if id ∈ s.cancelled ∨ id ∈ s.fired then s
    else
      match timerAction g ws positions tr with
      | some loc =>
        HookState.mk s.pendingRef s.armed s.cancelled (id :: s.fired)
          s.prevCleanup ((id, loc) :: s.events) s.nextId
      | none =>
        HookState.mk s.pendingRef s.armed s.cancelled (id :: s.fired)
          s.prevCleanup s.events s.nextId

/-- One scheduler step. -/
def hookStep (g : Grid) (ws : List JStr) (positions : List Point)
    (s : HookState) : HookStep → HookState
  | .render ict ga pf cf => hookRender ict ga pf cf s
  | .fire id => hookFire g ws positions id s

/-- A whole event trace. -/
def hookRun (g : Grid) (ws : List JStr) (positions : List Point)
    (s : HookState) : List HookStep → HookState
  | [] => s
  | st :: rest => hookRun g ws positions (hookStep g ws positions s st) rest

/-- The hook's initial state: no timer, nothing armed or fired. -/
def hookInit : HookState := HookState.mk none [] [] [] false [] 0

-- ------------------- specification helpers --------------------------------

/-- Whether the node reached by path p is a terminal (end-of-word) node. -/
def endAt (t : TrieNode) (p : JStr) : Bool :=
  match traverse t p with
  | some n => n.isEndOfWord
  | none => false

/-- The stored word at the node reached by path p. -/
def wordAt (t : TrieNode) (p : JStr) : Option JStr :=
  match traverse t p with
  | some n => n.word
  | none => none

/-- q is one of the 8 neighbour cells of p. -/
def adj8 (p q : Point) : Prop := (q.row - p.row, q.col - p.col) ∈ DIR8

/-- The string read off the grid along a cell path. -/
def pathStr (g : Grid) (path : List Point) : JStr :=
  path.flatMap (fun p => cellStr (gridGet g p.row p.col))

/-- Well-formedness of a solver result on grid g: non-empty simple path of
8-adjacent in-bounds cells whose first and last cells are start and end,
spelling (after case normalization) the reported word. -/
def FoundOk (rows cols : Nat) (g : Grid) (F : FoundWord) : Prop :=
  F.path ≠ [] ∧
  F.start = F.path.headD ⟨0, 0⟩ ∧
  F.endPt = F.path.getLastD ⟨0, 0⟩ ∧
  F.path.Nodup ∧
  List.Chain' adj8 F.path ∧
  (∀ p ∈ F.path, inB rows cols p.row p.col) ∧
  F.word = upper (pathStr g F.path)

-- ========================= Theorems =========================

theorem upChar_idem (c : Nat) : upChar (upChar c) = upChar c := by
  by_cases h : 97 ≤ c ∧ c ≤ 122
  · simp only [upChar, if_pos h]
    rw [if_neg (by omega)]
  · simp only [upChar, if_neg h]

theorem upper_idem (s : JStr) : upper (upper s) = upper s := by
  induction s with
  | nil => rfl
  | cons c cs ih =>
    simp only [upper, List.map_cons] at ih ⊢
    rw [upChar_idem, ih]

theorem upper_length (s : JStr) : (upper s).length = s.length := by
  simp [upper]

theorem WFGrid_empty (rows cols : Nat) : WFGrid (emptyGrid rows cols) rows cols := by
  constructor
  · simp [emptyGrid]
  · intro row hrow
    rcases List.eq_of_mem_replicate hrow with rfl
    simp

theorem getD_row_eq (g : Grid) (n : Nat) (hn : n < g.length) :
    g.getD n [] = g[n] := by
  rw [List.getD_eq_getElem?_getD, List.getElem?_eq_getElem hn]; rfl

theorem getD_set_self {α : Type} (l : List α) (n : Nat) (x d : α)
    (hn : n < l.length) : (l.set n x).getD n d = x := by
  rw [List.getD_eq_getElem?_getD, List.getElem?_set_self hn]; rfl

theorem getD_set_other {α : Type} (l : List α) (n m : Nat) (x d : α)
    (h : n ≠ m) : (l.set n x).getD m d = l.getD m d := by
  rw [List.getD_eq_getElem?_getD, List.getElem?_set_ne h,
    ← List.getD_eq_getElem?_getD]

theorem WFGrid_set (g : Grid) (rows cols : Nat) (r c : Int) (v : Cell)
    (h : WFGrid g rows cols) : WFGrid (setCell g r c v) rows cols := by
  obtain ⟨hlen, hrows⟩ := h
  unfold setCell
  split
  · by_cases hrn : r.toNat < g.length
    · refine ⟨by simpa using hlen, ?_⟩
      intro row hrow
      rcases List.mem_or_eq_of_mem_set hrow with hmem | rfl
      · exact hrows row hmem
      · rw [List.length_set, getD_row_eq g _ hrn]
        exact hrows _ (List.getElem_mem hrn)
    · rw [List.set_eq_of_length_le (le_of_not_lt hrn)]
      exact ⟨hlen, hrows⟩
  · exact ⟨hlen, hrows⟩

theorem gridGet_setCell_same (g : Grid) (rows cols : Nat) (r c : Int) (v : Cell)
    (hwf : WFGrid g rows cols) (hb : inB rows cols r c) :
    gridGet (setCell g r c v) r c = v := by
  obtain ⟨hr0, hrlt, hc0, hclt⟩ := hb
  obtain ⟨hlen, hrows⟩ := hwf
  have hrn : r.toNat < g.length := by omega
  have hcn : c.toNat < (g.getD r.toNat []).length := by
    rw [getD_row_eq g _ hrn, hrows _ (List.getElem_mem hrn)]; omega
  unfold gridGet setCell
  rw [if_pos ⟨hr0, hc0⟩, if_pos ⟨hr0, hc0⟩, getD_set_self _ _ _ _ hrn,
    getD_set_self _ _ _ _ hcn]

theorem gridGet_setCell_other (g : Grid) (r c r' c' : Int) (v : Cell)
    (hne : r ≠ r' ∨ c ≠ c') :
    gridGet (setCell g r c v) r' c' = gridGet g r' c' := by
  unfold setCell gridGet
  by_cases hrc : 0 ≤ r ∧ 0 ≤ c
  · rw [if_pos hrc]
    by_cases hrc' : 0 ≤ r' ∧ 0 ≤ c'
    · rw [if_pos hrc', if_pos hrc']
      by_cases hr : r.toNat = r'.toNat
      · have hrr : r = r' := by omega
        have hcc : c ≠ c' := by
          rcases hne with h | h
          · exact absurd hrr h
          · exact h
        subst hrr
        by_cases hlt : r.toNat < g.length
        · rw [getD_set_self _ _ _ _ hlt,
            getD_set_other _ _ _ _ _ (by omega : c.toNat ≠ c'.toNat)]
        · rw [List.set_eq_of_length_le (le_of_not_lt hlt)]
      · rw [getD_set_other _ _ _ _ _ hr]
    · rw [if_neg hrc', if_neg hrc']
  · rw [if_neg hrc]

theorem canPlaceWord_bounds (rows cols : Nat) (g : Grid) (w : JStr)
    (row col : Int) (d : Direction)
    (h : canPlaceWord rows cols g w row col d = true) :
    0 ≤ row + (dirStep d).1 * ((w.length : Int) - 1) ∧
    row + (dirStep d).1 * ((w.length : Int) - 1) < (rows : Int) ∧
    0 ≤ col + (dirStep d).2 * ((w.length : Int) - 1) ∧
    col + (dirStep d).2 * ((w.length : Int) - 1) < (cols : Int) := by
  unfold canPlaceWord at h
  split at h
  · exact absurd h (by simp)
  · rename_i hcond
    push_neg at hcond
    exact ⟨by omega, by omega, by omega, by omega⟩

theorem canPlaceWord_cells (rows cols : Nat) (g : Grid) (w : JStr)
    (row col : Int) (d : Direction)
    (h : canPlaceWord rows cols g w row col d = true) :
    ∀ i < w.length,
      gridGet g (cellPt row col d i).row (cellPt row col d i).col = none ∨
      gridGet g (cellPt row col d i).row (cellPt row col d i).col
        = some (w.getD i 0) := by
  unfold canPlaceWord at h
  split at h
  · exact absurd h (by simp)
  · rw [List.all_eq_true] at h
    intro i hi
    have := h i (List.mem_range.mpr hi)
    revert this
    cases hg : gridGet g (cellPt row col d i).row (cellPt row col d i).col with
    | none => intro _; left; rfl
    | some ch =>
      intro hbeq
      right
      simp only [beq_iff_eq] at hbeq
      rw [hbeq]

theorem canPlaceWord_dims (rows cols : Nat) (g : Grid) (w : JStr)
    (row col : Int) (d : Direction)
    (h : canPlaceWord rows cols g w row col d = true) :
    1 ≤ rows ∧ 1 ≤ cols := by
  have hb := canPlaceWord_bounds rows cols g w row col d h
  constructor <;> omega

theorem canPlaceWord_shortDim (rows cols : Nat) (g : Grid) (w : JStr)
    (row col : Int) (d : Direction)
    (h : canPlaceWord rows cols g w row col d = true)
    (hrow : 0 ≤ row) (hcol : 0 ≤ col) :
    w.length ≤ rows ∨ w.length ≤ cols := by
  have hb := canPlaceWord_bounds rows cols g w row col d h
  cases d <;> simp only [dirStep] at hb <;> omega

theorem cellPt_inB (rows cols : Nat) (g : Grid) (w : JStr)
    (row col : Int) (d : Direction)
    (h : canPlaceWord rows cols g w row col d = true)
    (hrow : 0 ≤ row ∧ row < (rows : Int)) (hcol : 0 ≤ col ∧ col < (cols : Int)) :
    ∀ i < w.length,
      inB rows cols (cellPt row col d i).row (cellPt row col d i).col := by
  have hb := canPlaceWord_bounds rows cols g w row col d h
  intro i hi
  cases d <;>
    simp only [dirStep, cellPt, inB] at hb ⊢ <;>
    refine ⟨by omega, by omega, by omega, by omega⟩

theorem cellPt_inj (row col : Int) (d : Direction) (i j : Nat)
    (h : cellPt row col d i = cellPt row col d j) : i = j := by
  cases d <;> simp only [cellPt, dirStep, Point.mk.injEq] at h <;> omega

theorem point_ne_split (p q : Point) (h : p ≠ q) : p.row ≠ q.row ∨ p.col ≠ q.col := by
  by_cases hr : p.row = q.row
  · right
    intro hc
    exact h (by cases p; cases q; simp_all)
  · left; exact hr

theorem writeWord_WF (g : Grid) (rows cols : Nat) (w : JStr) (row col : Int)
    (d : Direction) (n : Nat) (hwf : WFGrid g rows cols) :
    WFGrid (writeWord g w row col d n) rows cols := by
  induction n with
  | zero => exact hwf
  | succ n ih => exact WFGrid_set _ rows cols _ _ _ ih

theorem writeWord_get_off (g : Grid) (w : JStr) (row col : Int) (d : Direction)
    (n : Nat) (r' c' : Int)
    (hoff : ∀ i < n, cellPt row col d i ≠ ⟨r', c'⟩) :
    gridGet (writeWord g w row col d n) r' c' = gridGet g r' c' := by
  induction n with
  | zero => rfl
  | succ n ih =>
    show gridGet (setCell _ _ _ _) r' c' = _
    rw [gridGet_setCell_other _ _ _ _ _ _
      (point_ne_split _ _ (hoff n (Nat.lt_succ_self n))), ih]
    intro i hi
    exact hoff i (Nat.lt_succ_of_lt hi)

theorem writeWord_get_on (g : Grid) (rows cols : Nat) (w : JStr) (row col : Int)
    (d : Direction) (n : Nat) (hwf : WFGrid g rows cols)
    (hin : ∀ i < n, inB rows cols (cellPt row col d i).row (cellPt row col d i).col) :
    ∀ i < n,
      gridGet (writeWord g w row col d n) (cellPt row col d i).row
        (cellPt row col d i).col = some (w.getD i 0) := by
  induction n with
  | zero => intro i hi; omega
  | succ n ih =>
    intro i hi
    show gridGet (setCell (writeWord g w row col d n) _ _ _) _ _ = _
    by_cases heq : i = n
    · subst heq
      exact gridGet_setCell_same _ rows cols _ _ _
        (writeWord_WF g rows cols w row col d i hwf) (hin i hi)
    · have hilt : i < n := by omega
      rw [gridGet_setCell_other]
      · exact ih (fun j hj => hin j (Nat.lt_succ_of_lt hj)) i hilt
      · have hne : cellPt row col d n ≠ cellPt row col d i := by
          intro h
          exact heq (cellPt_inj row col d n i h).symm
        have := point_ne_split _ _ hne
        tauto

theorem gridGet_setCell_self_of_some (G : Grid) (r c : Int) (x : Cell) (v : Nat)
    (hv : gridGet G r c = some v) : gridGet (setCell G r c x) r c = x := by
  unfold gridGet setCell at *
  by_cases hrc : 0 ≤ r ∧ 0 ≤ c
  · rw [if_pos hrc] at hv ⊢
    rw [if_pos hrc]
    have hcn : c.toNat < (G.getD r.toNat []).length := by
      by_contra hge
      rw [List.getD_eq_getElem?_getD (G.getD r.toNat []) c.toNat none,
        List.getElem?_eq_none (by omega)] at hv
      exact absurd hv (by simp)
    have hrn : r.toNat < G.length := by
      by_contra hge
      rw [List.getD_eq_getElem?_getD G r.toNat [], List.getElem?_eq_none (by omega)] at hcn
      exact absurd hcn (by simp)
    rw [getD_set_self _ _ _ _ hrn, getD_set_self _ _ _ _ hcn]
  · rw [if_neg hrc] at hv
    exact absurd hv (by simp)

theorem writeWord_mono_some (g : Grid) (w : JStr)
    (row col : Int) (d : Direction)
    (hcells : ∀ i < w.length,
      gridGet g (cellPt row col d i).row (cellPt row col d i).col = none ∨
      gridGet g (cellPt row col d i).row (cellPt row col d i).col
        = some (w.getD i 0)) :
    ∀ n, n ≤ w.length → ∀ r' c' v, gridGet g r' c' = some v →
      gridGet (writeWord g w row col d n) r' c' = some v := by
  intro n
  induction n with
  | zero => intro _ r' c' v h; exact h
  | succ n ih =>
    intro hn r' c' v h
    show gridGet (setCell (writeWord g w row col d n) _ _ _) r' c' = _
    by_cases heq : cellPt row col d n = (⟨r', c'⟩ : Point)
    · have hv : v = w.getD n 0 := by
        rcases hcells n (by omega) with hc | hc <;> rw [heq] at hc <;>
          rw [h] at hc
        · exact absurd hc (by simp)
        · injection hc
      subst hv
      have h1 : (cellPt row col d n).row = r' := by rw [heq]
      have h2 : (cellPt row col d n).col = c' := by rw [heq]
      rw [h1, h2]
      exact gridGet_setCell_self_of_some _ _ _ _ _ (ih (by omega) r' c' _ h)
    · rw [gridGet_setCell_other _ _ _ _ _ _ (point_ne_split _ _ heq)]
      exact ih (by omega) r' c' v h

theorem drawIdx_nonneg (n i : Nat) : 0 ≤ drawIdx n i := by
  unfold drawIdx; split <;> omega

theorem drawIdx_lt (n i : Nat) (hn : 1 ≤ n) : drawIdx n i < (n : Int) := by
  unfold drawIdx
  rw [if_neg (by omega)]
  have : i % n < n := Nat.mod_lt i (by omega)
  omega

theorem fillRow_getD (f : Nat → Nat → Fin 26) (r : Nat) :
    ∀ (row : List Cell) (c0 k : Nat),
      (fillRow f r c0 row).getD k none =
        match row.getD k none with
        | some v => some v
        | none =>
          if k < row.length then some (letterAt (f r (c0 + k))) else none := by
  intro row
  induction row with
  | nil => intro c0 k; simp [fillRow]
  | cons cell rest ih =>
    intro c0 k
    cases k with
    | zero =>
      cases cell <;> simp [fillRow]
    | succ k =>
      show (fillRow f r (c0 + 1) rest).getD k none = _
      have hcons : (cell :: rest).getD (k + 1) none = rest.getD k none := rfl
      rw [ih (c0 + 1) k, hcons]
      have hadd : c0 + 1 + k = c0 + (k + 1) := by omega
      rw [hadd]
      cases h : rest.getD k none with
      | some v => rfl
      | none =>
        by_cases hk : k < rest.length
        · rw [if_pos hk, if_pos (by simp only [List.length_cons]; omega)]
        · rw [if_neg hk, if_neg (by simp only [List.length_cons]; omega)]

theorem fillRows_getD (f : Nat → Nat → Fin 26) :
    ∀ (g : Grid) (r0 j : Nat),
      (fillRows f r0 g).getD j [] = fillRow f (r0 + j) 0 (g.getD j []) := by
  intro g
  induction g with
  | nil => intro r0 j; simp [fillRows, fillRow]
  | cons row rest ih =>
    intro r0 j
    cases j with
    | zero => simp [fillRows]
    | succ j =>
      show (fillRows f (r0 + 1) rest).getD j [] = _
      rw [ih (r0 + 1) j]
      have : r0 + 1 + j = r0 + (j + 1) := by omega
      rw [this]
      simp [List.getD_cons_succ]

theorem gridGet_fill (g : Grid) (f : Nat → Nat → Fin 26) (r c : Int) :
    gridGet (fillEmptyCells g f) r c =
      if 0 ≤ r ∧ 0 ≤ c then
        match gridGet g r c with
        | some v => some v
        | none =>
          if c.toNat < (g.getD r.toNat []).length
          then some (letterAt (f r.toNat c.toNat)) else none
      else none := by
  by_cases hrc : 0 ≤ r ∧ 0 ≤ c
  · simp only [gridGet, fillEmptyCells, if_pos hrc]
    rw [fillRows_getD, fillRow_getD]
    simp only [Nat.zero_add]
  · simp only [gridGet, fillEmptyCells, if_neg hrc]

theorem gridGet_fill_some (g : Grid) (f : Nat → Nat → Fin 26) (r c : Int)
    (v : Nat) (h : gridGet g r c = some v) :
    gridGet (fillEmptyCells g f) r c = some v := by
  rw [gridGet_fill]
  have hrc : 0 ≤ r ∧ 0 ≤ c := by
    by_contra hbad
    unfold gridGet at h
    rw [if_neg hbad] at h
    exact absurd h (by simp)
  rw [if_pos hrc, h]

theorem gridGet_fill_total (g : Grid) (rows cols : Nat) (f : Nat → Nat → Fin 26)
    (r c : Int) (hwf : WFGrid g rows cols) (hb : inB rows cols r c) :
    ∃ v, gridGet (fillEmptyCells g f) r c = some v ∧
      (gridGet g r c = some v ∨ v = letterAt (f r.toNat c.toNat)) := by
  obtain ⟨hr0, hrlt, hc0, hclt⟩ := hb
  obtain ⟨hlen, hrows⟩ := hwf
  have hrn : r.toNat < g.length := by omega
  have hcn : c.toNat < (g.getD r.toNat []).length := by
    rw [getD_row_eq g _ hrn, hrows _ (List.getElem_mem hrn)]; omega
  rw [gridGet_fill, if_pos ⟨hr0, hc0⟩]
  cases h : gridGet g r c with
  | none =>
    exact ⟨letterAt (f r.toNat c.toNat), by rw [if_pos hcn], Or.inr rfl⟩
  | some v => exact ⟨v, rfl, Or.inl rfl⟩

theorem placeWordGo_spec (rows cols : Nat) (g : Grid) (w : JStr) :
    ∀ (atts : List Attempt) (g' : Grid) (L : WordLocation),
      placeWordGo rows cols g w atts = some (g', L) →
      ∃ (d : Direction) (row col : Int),
        canPlaceWord rows cols g w row col d = true ∧
        0 ≤ row ∧ row < (rows : Int) ∧ 0 ≤ col ∧ col < (cols : Int) ∧
        g' = writeWord g w row col d w.length ∧
        L = ⟨w, ⟨row, col⟩,
          if w.length = 0 then ⟨row, col⟩ else cellPt row col d (w.length - 1)⟩ := by
  intro atts
  induction atts with
  | nil => intro g' L h; exact absurd h (by simp [placeWordGo])
  | cons att rest ih =>
    intro g' L h
    obtain ⟨d, i, j⟩ := att
    unfold placeWordGo at h
    split at h
    · rename_i hcan
      injection h with h'
      rw [Prod.mk.injEq] at h'
      obtain ⟨h1, h2⟩ := h'
      refine ⟨d, drawIdx rows i, drawIdx cols j, hcan, drawIdx_nonneg rows i,
        ?_, drawIdx_nonneg cols j, ?_, ?_, ?_⟩
      · exact drawIdx_lt rows i (canPlaceWord_dims _ _ _ _ _ _ _ hcan).1
      · exact drawIdx_lt cols j (canPlaceWord_dims _ _ _ _ _ _ _ hcan).2
      · exact h1.symm
      · exact h2.symm
    · exact ih g' L h

theorem placeWord_spec (rows cols : Nat) (g : Grid) (w : JStr)
    (atts : List Attempt) (g' : Grid) (L : WordLocation)
    (h : placeWord rows cols g w atts = some (g', L)) :
    ∃ (d : Direction) (row col : Int),
      canPlaceWord rows cols g w row col d = true ∧
      0 ≤ row ∧ row < (rows : Int) ∧ 0 ≤ col ∧ col < (cols : Int) ∧
      g' = writeWord g w row col d w.length ∧
      L = ⟨w, ⟨row, col⟩,
        if w.length = 0 then ⟨row, col⟩ else cellPt row col d (w.length - 1)⟩ :=
  placeWordGo_spec rows cols g w _ g' L h

theorem placedOk_mono (rows cols : Nat) (g g' : Grid) (L : WordLocation)
    (hmono : ∀ r c v, gridGet g r c = some v → gridGet g' r c = some v)
    (h : PlacedOk rows cols g L) : PlacedOk rows cols g' L := by
  obtain ⟨d, hend, hcells⟩ := h
  exact ⟨d, hend, fun i hi => ⟨(hcells i hi).1, hmono _ _ _ (hcells i hi).2⟩⟩

theorem placeWord_result (rows cols : Nat) (g : Grid) (w : JStr)
    (atts : List Attempt) (g' : Grid) (L : WordLocation)
    (hwf : WFGrid g rows cols)
    (h : placeWord rows cols g w atts = some (g', L)) :
    WFGrid g' rows cols ∧
    (∀ r c v, gridGet g r c = some v → gridGet g' r c = some v) ∧
    PlacedOk rows cols g' L ∧
    L.word = w ∧
    (L.word.length ≤ rows ∨ L.word.length ≤ cols) ∧
    1 ≤ rows ∧ 1 ≤ cols := by
  obtain ⟨d, row, col, hcan, hr0, hrlt, hc0, hclt, hg', hL⟩ :=
    placeWord_spec rows cols g w atts g' L h
  subst hg'
  subst hL
  have hin := cellPt_inB rows cols g w row col d hcan ⟨hr0, hrlt⟩ ⟨hc0, hclt⟩
  refine ⟨writeWord_WF g rows cols w row col d w.length hwf,
    writeWord_mono_some g w row col d
      (canPlaceWord_cells rows cols g w row col d hcan) w.length (le_refl _),
    ⟨d, rfl, ?_⟩, rfl,
    canPlaceWord_shortDim rows cols g w row col d hcan hr0 hc0,
    canPlaceWord_dims rows cols g w row col d hcan⟩
  intro i hi
  exact ⟨hin i hi,
    writeWord_get_on g rows cols w row col d w.length hwf hin i hi⟩

theorem generateLoop_inv (rows cols : Nat) :
    ∀ (ws : List JStr) (rands : List (List Attempt)) (g : Grid),
      WFGrid g rows cols →
      WFGrid (generateLoop rows cols ws rands g).1 rows cols ∧
      (∀ r c v, gridGet g r c = some v →
        gridGet (generateLoop rows cols ws rands g).1 r c = some v) ∧
      ∀ L ∈ (generateLoop rows cols ws rands g).2,
        PlacedOk rows cols (generateLoop rows cols ws rands g).1 L ∧
        (∃ w ∈ ws, L.word = upper w) ∧
        (L.word.length ≤ rows ∨ L.word.length ≤ cols) ∧
        1 ≤ rows ∧ 1 ≤ cols := by
  intro ws
  induction ws with
  | nil =>
    intro rands g hwf
    exact ⟨hwf, fun r c v h => h, fun L hL => absurd hL (by simp [generateLoop])⟩
  | cons w ws ih =>
    intro rands g hwf
    show WFGrid (generateLoop rows cols (w :: ws) rands g).1 rows cols ∧ _ ∧ _
    cases hplace : placeWord rows cols g (upper w) (rands.headD []) with
    | none =>
      have hred : generateLoop rows cols (w :: ws) rands g
          = generateLoop rows cols ws rands.tail g := by
        simp only [generateLoop, hplace]
      rw [hred]
      obtain ⟨h1, h2, h3⟩ := ih rands.tail g hwf
      refine ⟨h1, h2, fun L hL => ?_⟩
      obtain ⟨ha, ⟨w', hw', hww⟩, hc, hd⟩ := h3 L hL
      exact ⟨ha, ⟨w', List.mem_cons_of_mem _ hw', hww⟩, hc, hd⟩
    | some r =>
      obtain ⟨g1, loc⟩ := r
      have hred : generateLoop rows cols (w :: ws) rands g
          = ((generateLoop rows cols ws rands.tail g1).1,
             loc :: (generateLoop rows cols ws rands.tail g1).2) := by
        simp only [generateLoop, hplace]
      rw [hred]
      obtain ⟨hwf1, hmono1, hok1, hword1, hshort1, hdims1⟩ :=
        placeWord_result rows cols g (upper w) (rands.headD []) g1 loc hwf hplace
      obtain ⟨h1, h2, h3⟩ := ih rands.tail g1 hwf1
      refine ⟨h1, fun r c v hv => h2 r c v (hmono1 r c v hv), fun L hL => ?_⟩
      rcases List.mem_cons.mp hL with rfl | hL'
      · exact ⟨placedOk_mono rows cols g1 _ L h2 hok1,
          ⟨w, List.mem_cons_self _ _, hword1⟩, hshort1, hdims1⟩
      · obtain ⟨ha, ⟨w', hw', hww⟩, hc, hd⟩ := h3 L hL'
        exact ⟨ha, ⟨w', List.mem_cons_of_mem _ hw', hww⟩, hc, hd⟩

theorem mem_dedupGo : ∀ (ws seen : List JStr) (w : JStr),
    w ∈ dedupGo seen ws → w ∈ ws := by
  intro ws
  induction ws with
  | nil => intro seen w h; exact absurd h (by simp [dedupGo])
  | cons x xs ih =>
    intro seen w h
    unfold dedupGo at h
    split at h
    · exact List.mem_cons_of_mem _ (ih seen w h)
    · rcases List.mem_cons.mp h with rfl | h'
      · exact List.mem_cons_self _ _
      · exact List.mem_cons_of_mem _ (ih _ w h')

theorem mem_dedupJS (ws : List JStr) (w : JStr) (h : w ∈ dedupJS ws) : w ∈ ws :=
  mem_dedupGo ws [] w h

theorem mem_insertByLen (w x : JStr) : ∀ (l : List JStr),
    x ∈ insertByLen w l → x = w ∨ x ∈ l := by
  intro l
  induction l with
  | nil => intro h; rcases List.mem_cons.mp h with h | h; exact Or.inl h; exact absurd h (by simp)
  | cons y ys ih =>
    intro h
    unfold insertByLen at h
    split at h
    · rcases List.mem_cons.mp h with rfl | h'
      · exact Or.inr (List.mem_cons_self _ _)
      · rcases ih h' with h'' | h''
        · exact Or.inl h''
        · exact Or.inr (List.mem_cons_of_mem _ h'')
    · rcases List.mem_cons.mp h with rfl | h'
      · exact Or.inl rfl
      · exact Or.inr h'

theorem mem_sortWords (x : JStr) : ∀ (l : List JStr), x ∈ sortWords l → x ∈ l := by
  intro l
  induction l with
  | nil => intro h; exact absurd h (by simp [sortWords])
  | cons y ys ih =>
    intro h
    rcases mem_insertByLen y x (sortWords ys) h with rfl | h'
    · exact List.mem_cons_self _ _
    · exact List.mem_cons_of_mem _ (ih h')

theorem fillRow_length (f : Nat → Nat → Fin 26) (r : Nat) :
    ∀ (row : List Cell) (c0 : Nat), (fillRow f r c0 row).length = row.length := by
  intro row
  induction row with
  | nil => intro c0; rfl
  | cons cell rest ih =>
    intro c0
    show (fillRow f r c0 (cell :: rest)).length = rest.length + 1
    unfold fillRow
    rw [List.length_cons, ih (c0 + 1)]

theorem fillRows_shape (f : Nat → Nat → Fin 26) :
    ∀ (g : Grid) (r0 : Nat),
      (fillRows f r0 g).length = g.length ∧
      ∀ row' ∈ fillRows f r0 g, ∃ row ∈ g, row'.length = row.length := by
  intro g
  induction g with
  | nil => intro r0; exact ⟨rfl, fun row' h => absurd h (by simp [fillRows])⟩
  | cons row rest ih =>
    intro r0
    constructor
    · show (fillRow f r0 0 row :: fillRows f (r0 + 1) rest).length = _
      rw [List.length_cons, (ih (r0 + 1)).1, List.length_cons]
    · intro row' h
      rcases List.mem_cons.mp h with rfl | h'
      · exact ⟨row, List.mem_cons_self _ _, fillRow_length f r0 row 0⟩
      · obtain ⟨row'', hmem, hlen⟩ := (ih (r0 + 1)).2 row' h'
        exact ⟨row'', List.mem_cons_of_mem _ hmem, hlen⟩

theorem WFGrid_fill (g : Grid) (rows cols : Nat) (f : Nat → Nat → Fin 26)
    (h : WFGrid g rows cols) : WFGrid (fillEmptyCells g f) rows cols := by
  obtain ⟨hlen, hrows⟩ := h
  obtain ⟨hlen', hsh⟩ := fillRows_shape f g 0
  refine ⟨by rw [fillEmptyCells, hlen', hlen], fun row' hrow' => ?_⟩
  obtain ⟨row, hmem, hl⟩ := hsh row' hrow'
  rw [hl]
  exact hrows row hmem

theorem generate_inv (rows cols : Nat) (ws : List JStr)
    (rand : List (List Attempt)) (fillRand : Nat → Nat → Fin 26) :
    WFGrid (generate rows cols ws rand fillRand).grid rows cols ∧
    ∀ L ∈ (generate rows cols ws rand fillRand).words,
      PlacedOk rows cols (generate rows cols ws rand fillRand).grid L ∧
      (∃ w ∈ ws, L.word = upper w) ∧
      (L.word.length ≤ rows ∨ L.word.length ≤ cols) ∧
      1 ≤ rows ∧ 1 ≤ cols := by
  obtain ⟨h1, h2, h3⟩ := generateLoop_inv rows cols (sortWords (dedupJS ws)) rand
    (emptyGrid rows cols) (WFGrid_empty rows cols)
  constructor
  · exact WFGrid_fill _ rows cols fillRand h1
  · intro L hL
    obtain ⟨ha, ⟨w', hw', hww⟩, hc, hd⟩ := h3 L hL
    refine ⟨placedOk_mono rows cols _ _ L
      (fun r c v hv => gridGet_fill_some _ fillRand r c v hv) ha,
      ⟨w', mem_dedupJS ws w' (mem_sortWords w' _ hw'), hww⟩, hc, hd⟩

theorem sign_mul_step (a k i : Int) (ha : a = -1 ∨ a = 0 ∨ a = 1) (hk : 0 < k) :
    Int.sign (a * k) * i = a * i := by
  rcases ha with rfl | rfl | rfl
  · rw [show (-1 : Int) * k = -k by ring, Int.sign_eq_neg_one_of_neg (by omega)]
  · simp
  · rw [one_mul, Int.sign_eq_one_of_pos hk, one_mul]

theorem dirStep_row_cases (d : Direction) :
    (dirStep d).1 = -1 ∨ (dirStep d).1 = 0 ∨ (dirStep d).1 = 1 := by
  cases d <;> simp [dirStep]

theorem dirStep_col_cases (d : Direction) :
    (dirStep d).2 = -1 ∨ (dirStep d).2 = 0 ∨ (dirStep d).2 = 1 := by
  cases d <;> simp [dirStep]

theorem linePt_eq_cellPt (s : Point) (d : Direction) (n : Nat) (hn : 1 ≤ n)
    (i : Nat) (hi : i < n) :
    linePt s (cellPt s.row s.col d (n - 1)) i = cellPt s.row s.col d i := by
  by_cases h1 : n = 1
  · subst h1
    have : i = 0 := by omega
    subst this
    simp [linePt, cellPt]
  · have hk : (0 : Int) < ((n - 1 : Nat) : Int) := by omega
    unfold linePt cellPt
    simp only [Point.mk.injEq]
    constructor
    · rw [show s.row + (dirStep d).1 * ((n - 1 : Nat) : Int) - s.row
          = (dirStep d).1 * ((n - 1 : Nat) : Int) by ring,
        sign_mul_step _ _ _ (dirStep_row_cases d) hk]
    · rw [show s.col + (dirStep d).2 * ((n - 1 : Nat) : Int) - s.col
          = (dirStep d).2 * ((n - 1 : Nat) : Int) by ring,
        sign_mul_step _ _ _ (dirStep_col_cases d) hk]

theorem placedOk_linePt (rows cols : Nat) (g : Grid) (L : WordLocation)
    (h : PlacedOk rows cols g L) :
    ∀ i < L.word.length,
      gridGet g (linePt L.start L.endPt i).row (linePt L.start L.endPt i).col
        = some (L.word.getD i 0) := by
  obtain ⟨d, hend, hcells⟩ := h
  intro i hi
  have hlp : linePt L.start L.endPt i = cellPt L.start.row L.start.col d i := by
    rw [hend, if_neg (by omega)]
    exact linePt_eq_cellPt L.start d L.word.length (by omega) i hi
  rw [hlp]
  exact (hcells i hi).2

theorem placedOk_lineRead (rows cols : Nat) (g : Grid) (L : WordLocation)
    (h : PlacedOk rows cols g L) : lineRead g L = L.word.map some := by
  have hpt := placedOk_linePt rows cols g L h
  unfold lineRead
  apply List.ext_getElem
  · simp
  · intro i h1 h2
    have hi : i < L.word.length := by simpa using h2
    simp only [List.getElem_map, List.getElem_range]
    rw [hpt i hi, List.getD_eq_getElem L.word 0 hi]

/-- Claim C1: every WordLocation returned by generate reads back, along the
straight line from start to end, as exactly its (uppercased) word; hence any
grid cell shared by two placed words carries the one letter both words need
there. Holds for every word list, grid dimensions and randomness. -/
theorem claim_C1_placement_sound (rows cols : Nat) (ws : List JStr)
    (rand : List (List Attempt)) (fillRand : Nat → Nat → Fin 26) :
    (∀ L ∈ (generate rows cols ws rand fillRand).words,
      lineRead (generate rows cols ws rand fillRand).grid L = L.word.map some) ∧
    (∀ L1 ∈ (generate rows cols ws rand fillRand).words,
     ∀ L2 ∈ (generate rows cols ws rand fillRand).words,
     ∀ i j : Nat, i < L1.word.length → j < L2.word.length →
       linePt L1.start L1.endPt i = linePt L2.start L2.endPt j →
       L1.word.getD i 0 = L2.word.getD j 0) := by
  obtain ⟨hwf, hall⟩ := generate_inv rows cols ws rand fillRand
  constructor
  · intro L hL
    exact placedOk_lineRead rows cols _ L (hall L hL).1
  · intro L1 hL1 L2 hL2 i j hi hj hpt
    have h1 := placedOk_linePt rows cols _ L1 (hall L1 hL1).1 i hi
    have h2 := placedOk_linePt rows cols _ L2 (hall L2 hL2).1 j hj
    rw [hpt] at h1
    rw [h1] at h2
    injection h2

/-- Witness for C1 at a concrete run: a 3x3 grid with word "cat". -/
theorem claim_C1_placement_sound_witness :
    lineRead (generate 3 3 [[99, 97, 116]] [[(.HORIZONTAL, 0, 0)]]
        (fun _ _ => (0 : Fin 26))).grid
      ⟨[67, 65, 84], ⟨0, 0⟩, ⟨0, 2⟩⟩ = [67, 65, 84].map some :=
  (claim_C1_placement_sound 3 3 [[99, 97, 116]] [[(.HORIZONTAL, 0, 0)]]
      (fun _ _ => (0 : Fin 26))).1
    ⟨[67, 65, 84], ⟨0, 0⟩, ⟨0, 2⟩⟩ (by decide)

/-- Claim C8: a word longer than both grid dimensions is never placed (and with
a zero dimension nothing non-empty is placed); generate itself is total, so it
still returns a GridState with no error path. -/
theorem claim_C8_too_long_dropped (rows cols : Nat) (ws : List JStr)
    (rand : List (List Attempt)) (fillRand : Nat → Nat → Fin 26) :
    ∀ L ∈ (generate rows cols ws rand fillRand).words,
      ¬ ((rows < L.word.length ∧ cols < L.word.length) ∨
         (L.word ≠ [] ∧ (rows = 0 ∨ cols = 0))) := by
  intro L hL
  obtain ⟨_, _, hshort, hrows, hcols⟩ := (generate_inv rows cols ws rand fillRand).2 L hL
  intro hbad
  rcases hbad with ⟨h1, h2⟩ | ⟨_, h⟩
  · omega
  · omega

/-- Witness for C8 at a concrete run. -/
theorem claim_C8_too_long_dropped_witness :
    ¬ ((3 < ([67, 65, 84] : JStr).length ∧ 3 < ([67, 65, 84] : JStr).length) ∨
       (([67, 65, 84] : JStr) ≠ [] ∧ (3 = 0 ∨ 3 = 0))) :=
  claim_C8_too_long_dropped 3 3 [[99, 97, 116]] [[(.HORIZONTAL, 0, 0)]]
    (fun _ _ => (0 : Fin 26)) ⟨[67, 65, 84], ⟨0, 0⟩, ⟨0, 2⟩⟩ (by decide)

theorem gridGet_empty (rows cols : Nat) (r c : Int) :
    gridGet (emptyGrid rows cols) r c = none := by
  unfold gridGet emptyGrid
  split
  · have hrow : (List.replicate rows (List.replicate cols (none : Cell))).getD r.toNat []
        = [] ∨ (List.replicate rows (List.replicate cols (none : Cell))).getD r.toNat []
        = List.replicate cols none := by
      rw [List.getD_eq_getElem?_getD]
      cases h : (List.replicate rows (List.replicate cols (none : Cell)))[r.toNat]? with
      | none => left; rfl
      | some row =>
        right
        have := List.eq_of_mem_replicate (List.getElem?_mem h)
        rw [this]; rfl
    rcases hrow with h | h <;> rw [h]
    · rfl
    · rw [List.getD_eq_getElem?_getD]
      cases h2 : (List.replicate cols (none : Cell))[c.toNat]? with
      | none => rfl
      | some v =>
        have := List.eq_of_mem_replicate (List.getElem?_mem h2)
        rw [this]; rfl
  · rfl

theorem gridGet_setCell_cases (g : Grid) (r c r' c' : Int) (x : Cell) :
    gridGet (setCell g r c x) r' c' = gridGet g r' c' ∨
    gridGet (setCell g r c x) r' c' = x := by
  by_cases heq : r = r' ∧ c = c'
  · obtain ⟨rfl, rfl⟩ := heq
    unfold setCell gridGet
    by_cases hrc : 0 ≤ r ∧ 0 ≤ c
    · rw [if_pos hrc, if_pos hrc]
      by_cases hrn : r.toNat < g.length
      · rw [getD_set_self _ _ _ _ hrn]
        by_cases hcn : c.toNat < (g.getD r.toNat []).length
        · right; rw [getD_set_self _ _ _ _ hcn]
        · left
          rw [List.set_eq_of_length_le (by omega), if_pos hrc]
      · left
        rw [List.set_eq_of_length_le (by omega), if_pos hrc]
    · left; rw [if_neg hrc, if_neg hrc]
  · left
    apply gridGet_setCell_other
    by_cases hr : r = r'
    · right; intro hc; exact heq ⟨hr, hc⟩
    · left; exact hr

theorem writeWord_cellsFrom (g : Grid) (w : JStr) (row col : Int)
    (d : Direction) :
    ∀ n, n ≤ w.length → ∀ r c v,
      gridGet (writeWord g w row col d n) r c = some v →
      gridGet g r c = some v ∨ v ∈ w := by
  intro n
  induction n with
  | zero => intro _ r c v h; exact Or.inl h
  | succ n ih =>
    intro hn r c v h
    have hstep := gridGet_setCell_cases (writeWord g w row col d n)
      (cellPt row col d n).row (cellPt row col d n).col r c (some (w.getD n 0))
    rcases hstep with hcase | hcase
    · rw [show gridGet (writeWord g w row col d (n + 1)) r c
          = gridGet (setCell (writeWord g w row col d n) (cellPt row col d n).row
            (cellPt row col d n).col (some (w.getD n 0))) r c from rfl, hcase] at h
      exact ih (by omega) r c v h
    · rw [show gridGet (writeWord g w row col d (n + 1)) r c
          = gridGet (setCell (writeWord g w row col d n) (cellPt row col d n).row
            (cellPt row col d n).col (some (w.getD n 0))) r c from rfl, hcase] at h
      injection h with h'
      right
      rw [← h', List.getD_eq_getElem w 0 (by omega)]
      exact List.getElem_mem _

theorem generateLoop_cellsFrom (rows cols : Nat) :
    ∀ (ws : List JStr) (rands : List (List Attempt)) (g : Grid) (r c : Int) (v : Nat),
      gridGet (generateLoop rows cols ws rands g).1 r c = some v →
      gridGet g r c = some v ∨ ∃ w ∈ ws, v ∈ upper w := by
  intro ws
  induction ws with
  | nil => intro rands g r c v h; exact Or.inl h
  | cons w ws ih =>
    intro rands g r c v h
    cases hplace : placeWord rows cols g (upper w) (rands.headD []) with
    | none =>
      rw [show generateLoop rows cols (w :: ws) rands g
          = generateLoop rows cols ws rands.tail g by simp only [generateLoop, hplace]] at h
      rcases ih rands.tail g r c v h with h' | ⟨w', hw', hv⟩
      · exact Or.inl h'
      · exact Or.inr ⟨w', List.mem_cons_of_mem _ hw', hv⟩
    | some pr =>
      obtain ⟨g1, loc⟩ := pr
      rw [show generateLoop rows cols (w :: ws) rands g
          = ((generateLoop rows cols ws rands.tail g1).1,
             loc :: (generateLoop rows cols ws rands.tail g1).2)
          by simp only [generateLoop, hplace]] at h
      rcases ih rands.tail g1 r c v h with h' | ⟨w', hw', hv⟩
      · -- trace the cell back through this placement
        obtain ⟨d, row, col, hcan, _, _, _, _, hg', _⟩ :=
          placeWord_spec rows cols g (upper w) _ g1 loc hplace
        subst hg'
        rcases writeWord_cellsFrom g (upper w) row col d (upper w).length
          (le_refl _) r c v h' with h'' | h''
        · exact Or.inl h''
        · exact Or.inr ⟨w, List.mem_cons_self _ _, h''⟩
      · exact Or.inr ⟨w', List.mem_cons_of_mem _ hw', hv⟩

/-- Counterexample to C7 as stated: with input word "5" on a 1x1 grid, the
grid cell holds the character '5' (code 53), which is not an uppercase letter. -/
theorem claim_C7_counterexample :
    gridGet (generate 1 1 [[53]] [[(.HORIZONTAL, 0, 0)]]
      (fun _ _ => (0 : Fin 26))).grid 0 0 = some 53 ∧
    ¬ (65 ≤ 53 ∧ 53 ≤ 90) := by
  constructor
  · decide
  · decide

/-- Claim C7 (amended): for rows, cols >= 1 every cell of the generated grid is
non-empty and holds exactly one character; noise cells are always uppercase
letters, and when every input word consists of ASCII letters, every cell holds
an uppercase letter. -/
theorem claim_C7_coverage (rows cols : Nat) (ws : List JStr)
    (rand : List (List Attempt)) (fillRand : Nat → Nat → Fin 26)
    (hrows : 1 ≤ rows) (hcols : 1 ≤ cols) :
    ∀ r c : Int, inB rows cols r c →
      (∃ v, gridGet (generate rows cols ws rand fillRand).grid r c = some v) ∧
      ((∀ w ∈ ws, ∀ ch ∈ w, (65 ≤ ch ∧ ch ≤ 90) ∨ (97 ≤ ch ∧ ch ≤ 122)) →
        ∃ v, gridGet (generate rows cols ws rand fillRand).grid r c = some v ∧
          65 ≤ v ∧ v ≤ 90) := by
  intro r c hb
  have hwfloop := (generateLoop_inv rows cols (sortWords (dedupJS ws)) rand
    (emptyGrid rows cols) (WFGrid_empty rows cols)).1
  obtain ⟨v, hv, hsrc⟩ := gridGet_fill_total
    (generateLoop rows cols (sortWords (dedupJS ws)) rand (emptyGrid rows cols)).1
    rows cols fillRand r c hwfloop hb
  refine ⟨⟨v, hv⟩, fun halpha => ⟨v, hv, ?_⟩⟩
  rcases hsrc with hio | hlet
  · -- the cell was written by a placement: an uppercased input-word character
    rcases generateLoop_cellsFrom rows cols _ rand _ r c v hio with hempty | ⟨w, hw, hv'⟩
    · rw [gridGet_empty] at hempty
      exact absurd hempty (by simp)
    · have hwmem : w ∈ ws := mem_dedupJS ws w (mem_sortWords w _ hw)
      obtain ⟨ch, hch, rfl⟩ := List.mem_map.mp hv'
      have := halpha w hwmem ch hch
      unfold upChar
      split <;> omega
  · rw [hlet]
    unfold letterAt
    have := (fillRand r.toNat c.toNat).isLt
    omega

/-- Witness for C7 (amended) at a concrete run: 1x1 grid, word "a". -/
theorem claim_C7_coverage_witness :
    (∃ v, gridGet (generate 1 1 [[97]] [[(.HORIZONTAL, 0, 0)]]
      (fun _ _ => (0 : Fin 26))).grid 0 0 = some v) ∧
    ((∀ w ∈ [[97]], ∀ ch ∈ w, (65 ≤ ch ∧ ch ≤ 90) ∨ (97 ≤ ch ∧ ch ≤ 122)) →
      ∃ v, gridGet (generate 1 1 [[97]] [[(.HORIZONTAL, 0, 0)]]
        (fun _ _ => (0 : Fin 26))).grid 0 0 = some v ∧ 65 ≤ v ∧ v ≤ 90) :=
  claim_C7_coverage 1 1 [[97]] [[(.HORIZONTAL, 0, 0)]] (fun _ _ => (0 : Fin 26))
    (by decide) (by decide) 0 0 (by decide)

theorem placeWord_word (rows cols : Nat) (g : Grid) (w : JStr)
    (atts : List Attempt) (g' : Grid) (L : WordLocation)
    (h : placeWord rows cols g w atts = some (g', L)) : L.word = w := by
  obtain ⟨d, row, col, _, _, _, _, _, _, hL⟩ :=
    placeWord_spec rows cols g w atts g' L h
  rw [hL]

theorem generateLoop_words_sublist (rows cols : Nat) :
    ∀ (ws : List JStr) (rands : List (List Attempt)) (g : Grid),
      List.Sublist ((generateLoop rows cols ws rands g).2.map WordLocation.word)
        (ws.map upper) := by
  intro ws
  induction ws with
  | nil => intro rands g; simp [generateLoop]
  | cons w ws ih =>
    intro rands g
    cases hplace : placeWord rows cols g (upper w) (rands.headD []) with
    | none =>
      rw [show generateLoop rows cols (w :: ws) rands g
          = generateLoop rows cols ws rands.tail g by simp only [generateLoop, hplace]]
      exact List.Sublist.cons (upper w) (ih rands.tail g)
    | some pr =>
      obtain ⟨g1, loc⟩ := pr
      rw [show generateLoop rows cols (w :: ws) rands g
          = ((generateLoop rows cols ws rands.tail g1).1,
             loc :: (generateLoop rows cols ws rands.tail g1).2)
          by simp only [generateLoop, hplace]]
      have hw : loc.word = upper w := placeWord_word rows cols g (upper w) _ g1 loc hplace
      show List.Sublist (loc.word :: _) (upper w :: ws.map upper)
      rw [hw]
      exact List.Sublist.cons₂ (upper w) (ih rands.tail g1)

theorem dedupGo_nodup : ∀ (ws seen : List JStr),
    (dedupGo seen ws).Nodup ∧ ∀ x ∈ dedupGo seen ws, x ∉ seen := by
  intro ws
  induction ws with
  | nil => intro seen; exact ⟨List.nodup_nil, by simp [dedupGo]⟩
  | cons w ws ih =>
    intro seen
    unfold dedupGo
    split
    · exact ih seen
    · rename_i hw
      obtain ⟨hnd, hnotin⟩ := ih (w :: seen)
      constructor
      · refine List.Nodup.cons (fun hmem => ?_) hnd
        exact hnotin w hmem (List.mem_cons_self _ _)
      · intro x hx
        rcases List.mem_cons.mp hx with rfl | hx'
        · exact hw
        · intro hxseen
          exact hnotin x hx' (List.mem_cons_of_mem _ hxseen)

/-- Counterexample to C4 as stated: with inputs "cat" and "CAT" (distinct JS
strings, equal after uppercasing) and suitable randomness, generate returns
two WordLocations with the same uppercased word CAT. -/
theorem claim_C4_counterexample :
    ((generate 3 3 [[99, 97, 116], [67, 65, 84]]
        [[(.HORIZONTAL, 0, 0)], [(.HORIZONTAL, 1, 0)]]
        (fun _ _ => (0 : Fin 26))).words.map (fun L => upper L.word))
      = [[67, 65, 84], [67, 65, 84]] ∧
    ¬ ((generate 3 3 [[99, 97, 116], [67, 65, 84]]
        [[(.HORIZONTAL, 0, 0)], [(.HORIZONTAL, 1, 0)]]
        (fun _ _ => (0 : Fin 26))).words.map (fun L => upper L.word)).Nodup := by
  constructor
  · decide
  · decide

/-- Claim C4 (amended): generate de-duplicates its input by exact string
identity (JS Set) before placement: the placed words form a sublist of the
uppercased, exactly-de-duplicated, sorted input, which contains no exact
duplicates; case variants of the same word are distinct inputs and may each
be placed. -/
theorem claim_C4_dedup_exact (rows cols : Nat) (ws : List JStr)
    (rand : List (List Attempt)) (fillRand : Nat → Nat → Fin 26) :
    List.Sublist ((generate rows cols ws rand fillRand).words.map WordLocation.word)
      ((sortWords (dedupJS ws)).map upper) ∧
    (dedupJS ws).Nodup := by
  constructor
  · exact generateLoop_words_sublist rows cols (sortWords (dedupJS ws)) rand
      (emptyGrid rows cols)
  · exact (dedupGo_nodup ws []).1


theorem findChild_setChild :
    ∀ (l : List (Nat × TrieNode)) (c : Nat) (t : TrieNode) (q : Nat),
      findChild (setChild l c t) q = if c = q then some t else findChild l q := by
  intro l
  induction l with
  | nil => intro c t q; rfl
  | cons kt rest ih =>
    intro c t q
    obtain ⟨k, t'⟩ := kt
    have hset : setChild ((k, t') :: rest) c t
        = if k = c then (k, t) :: rest else (k, t') :: setChild rest c t := rfl
    rw [hset]
    by_cases hkc : k = c
    · rw [if_pos hkc]
      subst hkc
      have hfc : findChild ((k, t) :: rest) q
          = if k = q then some t else findChild rest q := rfl
      have hfc' : findChild ((k, t') :: rest) q
          = if k = q then some t' else findChild rest q := rfl
      rw [hfc, hfc']
      by_cases hkq : k = q
      · rw [if_pos hkq, if_pos hkq]
      · rw [if_neg hkq, if_neg hkq, if_neg hkq]
    · rw [if_neg hkc]
      have hfc : findChild ((k, t') :: setChild rest c t) q
          = if k = q then some t' else findChild (setChild rest c t) q := rfl
      have hfc' : findChild ((k, t') :: rest) q
          = if k = q then some t' else findChild rest q := rfl
      rw [hfc, hfc']
      by_cases hkq : k = q
      · rw [if_pos hkq, if_pos hkq,
          if_neg (fun hcq : c = q => hkc (hkq.trans hcq.symm))]
      · rw [if_neg hkq, if_neg hkq]
        exact ih c t q

theorem traverse_createNode (p : JStr) :
    traverse createNode p = if p = [] then some createNode else none := by
  cases p with
  | nil => rfl
  | cons c cs => rfl

theorem traverse_nil (t : TrieNode) : traverse t [] = some t := by
  cases t; rfl

theorem traverse_insertAux_isSome :
    ∀ (p cs full : JStr) (t : TrieNode),
      (traverse (insertAux cs full t) p).isSome = true ↔
        (traverse t p).isSome = true ∨ isPreB p cs = true := by
  intro p
  induction p with
  | nil =>
    intro cs full t
    constructor
    · intro _; right; cases cs <;> rfl
    · intro _
      rw [traverse_nil]
      rfl
  | cons q qs ih =>
    intro cs full t
    obtain ⟨ch, e, w⟩ := t
    cases cs with
    | nil =>
      have h1 : traverse (insertAux [] full (TrieNode.mk ch e w)) (q :: qs)
          = traverse (TrieNode.mk ch e w) (q :: qs) := rfl
      rw [h1]
      have h2 : isPreB (q :: qs) [] = false := rfl
      rw [h2]
      simp
    | cons c cs' =>
      have h1 : insertAux (c :: cs') full (TrieNode.mk ch e w)
          = TrieNode.mk
              (setChild ch c (insertAux cs' full ((findChild ch c).getD createNode)))
              e w := rfl
      rw [h1]
      have hstep : ∀ (ch' : List (Nat × TrieNode)) (e' : Bool) (w' : Option JStr),
          traverse (TrieNode.mk ch' e' w') (q :: qs)
            = match findChild ch' q with
              | none => none
              | some t' => traverse t' qs := fun _ _ _ => rfl
      rw [hstep, hstep, findChild_setChild]
      by_cases hcq : c = q
      · rw [if_pos hcq]
        subst hcq
        have hpre : isPreB (c :: qs) (c :: cs') = isPreB qs cs' := by
          simp [isPreB]
        rw [hpre]
        cases hfc : findChild ch c with
        | some t' =>
          simp only [Option.getD_some]
          rw [ih cs' full t']
        | none =>
          simp only [Option.getD_none]
          rw [ih cs' full createNode, traverse_createNode]
          constructor
          · rintro (h | h)
            · by_cases hqs : qs = []
              · subst hqs; right; rfl
              · rw [if_neg hqs] at h
                exact absurd h (by simp)
            · exact Or.inr h
          · rintro (h | h)
            · exact absurd h (by simp)
            · exact Or.inr h
      · rw [if_neg hcq]
        have hpre : isPreB (q :: qs) (c :: cs') = false := by
          simp [isPreB]
          intro h
          exact absurd h.symm hcq
        rw [hpre]
        simp

theorem traverse_foldl_isSome :
    ∀ (ws : List JStr) (t : TrieNode) (p : JStr),
      (traverse (ws.foldl Trie.insert t) p).isSome = true ↔
        (traverse t p).isSome = true ∨ ∃ w ∈ ws, isPreB p (upper w) = true := by
  intro ws
  induction ws with
  | nil => intro t p; simp
  | cons w ws ih =>
    intro t p
    show (traverse ((ws.foldl Trie.insert (Trie.insert t w))) p).isSome = true ↔ _
    rw [ih (Trie.insert t w) p]
    unfold Trie.insert
    rw [traverse_insertAux_isSome p (upper w) (upper w) t]
    constructor
    · rintro ((h | h) | ⟨w', hw', h⟩)
      · exact Or.inl h
      · exact Or.inr ⟨w, List.mem_cons_self _ _, h⟩
      · exact Or.inr ⟨w', List.mem_cons_of_mem _ hw', h⟩
    · rintro (h | ⟨w', hw', h⟩)
      · exact Or.inl (Or.inl h)
      · rcases List.mem_cons.mp hw' with rfl | hw''
        · exact Or.inl (Or.inr h)
        · exact Or.inr ⟨w', hw'', h⟩

/-- Counterexample to C5 as stated: on an empty insert sequence,
startsWith("") is true although no inserted word has "" as a prefix
(there are no inserted words at all). -/
theorem claim_C5_counterexample :
    Trie.startsWith (Trie.fromWords []) [] = true ∧
    ¬ ∃ w, w ∈ ([] : List JStr) ∧ isPreB (upper []) (upper w) = true := by
  refine ⟨rfl, ?_⟩
  rintro ⟨w, hw, _⟩
  exact (List.not_mem_nil w) hw

/-- Claim C5 (amended): for every insert sequence and probe string p,
startsWith(p) is true iff p is empty or some inserted word has uppercase(p)
as a prefix (including p itself being a full inserted word). The empty-probe
disjunct is forced by the counterexample: the trie root always exists. -/
theorem claim_C5_startsWith (ws : List JStr) (p : JStr) :
    Trie.startsWith (Trie.fromWords ws) p = true ↔
      (upper p = [] ∨ ∃ w ∈ ws, isPreB (upper p) (upper w) = true) := by
  unfold Trie.startsWith Trie.fromWords
  rw [traverse_foldl_isSome ws createNode (upper p), traverse_createNode]
  by_cases h : upper p = [] <;> simp [h]

theorem traverse_cons (ch : List (Nat × TrieNode)) (e : Bool) (w : Option JStr)
    (q : Nat) (qs : JStr) :
    traverse (TrieNode.mk ch e w) (q :: qs)
      = match findChild ch q with
        | none => none
        | some t' => traverse t' qs := rfl

theorem endAt_cons (ch : List (Nat × TrieNode)) (e : Bool) (w : Option JStr)
    (q : Nat) (qs : JStr) :
    endAt (TrieNode.mk ch e w) (q :: qs)
      = match findChild ch q with
        | none => false
        | some t' => endAt t' qs := by
  unfold endAt
  rw [traverse_cons]
  cases findChild ch q <;> rfl

theorem wordAt_cons (ch : List (Nat × TrieNode)) (e : Bool) (w : Option JStr)
    (q : Nat) (qs : JStr) :
    wordAt (TrieNode.mk ch e w) (q :: qs)
      = match findChild ch q with
        | none => none
        | some t' => wordAt t' qs := by
  unfold wordAt
  rw [traverse_cons]
  cases findChild ch q <;> rfl

theorem endAt_createNode (p : JStr) : endAt createNode p = false := by
  cases p with
  | nil => rfl
  | cons q qs => rfl

theorem wordAt_createNode (p : JStr) : wordAt createNode p = none := by
  cases p with
  | nil => rfl
  | cons q qs => rfl

theorem endAt_insertAux :
    ∀ (p cs full : JStr) (t : TrieNode),
      endAt (insertAux cs full t) p = true ↔ endAt t p = true ∨ p = cs := by
  intro p
  induction p with
  | nil =>
    intro cs full t
    obtain ⟨ch, e, w⟩ := t
    cases cs with
    | nil =>
      show endAt (TrieNode.mk ch true (some full)) [] = true ↔ _
      constructor
      · intro _; exact Or.inr rfl
      · intro _; rfl
    | cons c cs' =>
      show endAt (TrieNode.mk _ e w) [] = true ↔ endAt (TrieNode.mk ch e w) [] = true ∨ _
      have h1 : endAt (TrieNode.mk
          (setChild ch c (insertAux cs' full ((findChild ch c).getD createNode))) e w) []
          = e := rfl
      have h2 : endAt (TrieNode.mk ch e w) [] = e := rfl
      rw [h1, h2]
      simp
  | cons q qs ih =>
    intro cs full t
    obtain ⟨ch, e, w⟩ := t
    cases cs with
    | nil =>
      show endAt (TrieNode.mk ch true (some full)) (q :: qs) = true ↔ _
      rw [endAt_cons, endAt_cons]
      simp
    | cons c cs' =>
      show endAt (TrieNode.mk
        (setChild ch c (insertAux cs' full ((findChild ch c).getD createNode))) e w)
        (q :: qs) = true ↔ _
      rw [endAt_cons, endAt_cons, findChild_setChild]
      by_cases hcq : c = q
      · rw [if_pos hcq]
        subst hcq
        have hlist : (c :: qs = c :: cs') ↔ (qs = cs') := by simp
        cases hfc : findChild ch c with
        | some t' =>
          simp only [Option.getD_some]
          rw [ih cs' full t', hlist]
        | none =>
          simp only [Option.getD_none]
          rw [ih cs' full createNode, endAt_createNode, hlist]
      · rw [if_neg hcq]
        have hne : ¬ (q :: qs = c :: cs') := by
          intro h
          injection h with h1 _
          exact hcq h1.symm
        simp [hne]

theorem endAt_foldl :
    ∀ (ws : List JStr) (t : TrieNode) (p : JStr),
      endAt (ws.foldl Trie.insert t) p = true ↔
        endAt t p = true ∨ ∃ w ∈ ws, upper w = p := by
  intro ws
  induction ws with
  | nil => intro t p; simp
  | cons w ws ih =>
    intro t p
    show endAt (ws.foldl Trie.insert (Trie.insert t w)) p = true ↔ _
    rw [ih (Trie.insert t w) p]
    unfold Trie.insert
    rw [endAt_insertAux p (upper w) (upper w) t]
    constructor
    · rintro ((h | h) | ⟨w', hw', h⟩)
      · exact Or.inl h
      · exact Or.inr ⟨w, List.mem_cons_self _ _, h.symm⟩
      · exact Or.inr ⟨w', List.mem_cons_of_mem _ hw', h⟩
    · rintro (h | ⟨w', hw', h⟩)
      · exact Or.inl (Or.inl h)
      · rcases List.mem_cons.mp hw' with rfl | hw''
        · exact Or.inl (Or.inr h.symm)
        · exact Or.inr ⟨w', hw'', h⟩

theorem endAt_fromWords (ws : List JStr) (p : JStr) :
    endAt (Trie.fromWords ws) p = true ↔ ∃ w ∈ ws, upper w = p := by
  unfold Trie.fromWords
  rw [endAt_foldl ws createNode p, endAt_createNode]
  simp

theorem wordInv_insertAux :
    ∀ (cs pre : JStr) (t : TrieNode)
      (hyp : ∀ p, wordAt t p = if endAt t p = true then some (pre ++ p) else none),
      ∀ p, wordAt (insertAux cs (pre ++ cs) t) p
        = if endAt (insertAux cs (pre ++ cs) t) p = true
          then some (pre ++ p) else none := by
  intro cs
  induction cs with
  | nil =>
    intro pre t hyp p
    obtain ⟨ch, e, w⟩ := t
    have hred : insertAux [] (pre ++ []) (TrieNode.mk ch e w)
        = TrieNode.mk ch true (some (pre ++ [])) := rfl
    rw [hred]
    cases p with
    | nil =>
      have h1 : wordAt (TrieNode.mk ch true (some (pre ++ []))) []
          = some (pre ++ []) := rfl
      have h2 : endAt (TrieNode.mk ch true (some (pre ++ []))) [] = true := rfl
      rw [h1, h2, if_pos rfl]
    | cons q qs =>
      rw [wordAt_cons, endAt_cons]
      have hthis := hyp (q :: qs)
      rw [wordAt_cons, endAt_cons] at hthis
      exact hthis
  | cons c cs' ih =>
    intro pre t hyp p
    obtain ⟨ch, e, w⟩ := t
    have hfull : pre ++ c :: cs' = (pre ++ [c]) ++ cs' := by simp
    have hchild : ∀ p', wordAt ((findChild ch c).getD createNode) p'
        = if endAt ((findChild ch c).getD createNode) p' = true
          then some ((pre ++ [c]) ++ p') else none := by
      intro p'
      cases hfc : findChild ch c with
      | some t' =>
        simp only [Option.getD_some]
        have hthis := hyp (c :: p')
        simp only [wordAt_cons, endAt_cons, hfc] at hthis
        rw [hthis]
        have hass : pre ++ c :: p' = (pre ++ [c]) ++ p' := by simp
        rw [hass]
      | none =>
        simp only [Option.getD_none]
        rw [wordAt_createNode, if_neg (by rw [endAt_createNode]; simp)]
    have hred : insertAux (c :: cs') (pre ++ c :: cs') (TrieNode.mk ch e w)
        = TrieNode.mk
            (setChild ch c
              (insertAux cs' (pre ++ c :: cs') ((findChild ch c).getD createNode)))
            e w := rfl
    rw [hred, hfull]
    have hX := ih (pre ++ [c]) ((findChild ch c).getD createNode) hchild
    cases p with
    | nil =>
      have h1 : ∀ (ch' : List (Nat × TrieNode)),
          wordAt (TrieNode.mk ch' e w) [] = w := fun _ => rfl
      have h2 : ∀ (ch' : List (Nat × TrieNode)),
          endAt (TrieNode.mk ch' e w) [] = e := fun _ => rfl
      rw [h1, h2]
      have hthis := hyp []
      rw [h1 ch, h2 ch] at hthis
      rw [hthis]
    | cons q qs =>
      rw [wordAt_cons, endAt_cons, findChild_setChild]
      by_cases hcq : c = q
      · subst hcq
        rw [if_pos rfl]
        show wordAt (insertAux cs' ((pre ++ [c]) ++ cs')
            ((findChild ch c).getD createNode)) qs
          = if endAt (insertAux cs' ((pre ++ [c]) ++ cs')
              ((findChild ch c).getD createNode)) qs = true
            then some (pre ++ c :: qs) else none
        rw [hX qs]
        have hass : (pre ++ [c]) ++ qs = pre ++ c :: qs := by simp
        rw [hass]
      · rw [if_neg hcq]
        have hthis := hyp (q :: qs)
        rw [wordAt_cons, endAt_cons] at hthis
        exact hthis

theorem wordInv_foldl :
    ∀ (ws : List JStr) (t : TrieNode)
      (hyp : ∀ p, wordAt t p = if endAt t p = true then some p else none),
      ∀ p, wordAt (ws.foldl Trie.insert t) p
        = if endAt (ws.foldl Trie.insert t) p = true then some p else none := by
  intro ws
  induction ws with
  | nil => intro t hyp p; exact hyp p
  | cons w ws ih =>
    intro t hyp p
    show wordAt (ws.foldl Trie.insert (Trie.insert t w)) p = _
    refine ih (Trie.insert t w) ?_ p
    intro p'
    unfold Trie.insert
    have hbase : ∀ p'', wordAt t p''
        = if endAt t p'' = true then some (([] : JStr) ++ p'') else none := by
      intro p''
      rw [List.nil_append]
      exact hyp p''
    have := wordInv_insertAux (upper w) [] t hbase p'
    rw [List.nil_append] at this
    rw [this, List.nil_append]

theorem wordAt_fromWords (ws : List JStr) (p : JStr) :
    wordAt (Trie.fromWords ws) p
      = if endAt (Trie.fromWords ws) p = true then some p else none := by
  unfold Trie.fromWords
  refine wordInv_foldl ws createNode ?_ p
  intro p'
  rw [wordAt_createNode, endAt_createNode, if_neg (by simp)]

theorem foldl_preserve {σ α : Type} (P : σ → Prop) (f : σ → α → σ)
    (hstep : ∀ s x, P s → P (f s x)) :
    ∀ (l : List α) (s : σ), P s → P (List.foldl f s l) := by
  intro l
  induction l with
  | nil => intro s h; exact h
  | cons x xs ih => intro s h; exact ih (f s x) (hstep s x h)

theorem foldl_establish {σ α : Type} (P : σ → Prop) (f : σ → α → σ) (x0 : α)
    (hest : ∀ s, P (f s x0)) (hstep : ∀ s x, P s → P (f s x)) :
    ∀ (l : List α) (s : σ), x0 ∈ l → P (List.foldl f s l) := by
  intro l
  induction l with
  | nil => intro s h; exact absurd h (List.not_mem_nil x0)
  | cons x xs ih =>
    intro s h
    rcases List.mem_cons.mp h with rfl | h'
    · exact foldl_preserve P f hstep xs (f s x0) (hest s)
    · exact ih (f s x) h'

theorem dfsAll_found_mono (g : Grid) (t : TrieNode) (rows cols : Nat) (w : JStr) :
    ∀ (fuel : Nat) (row col : Int) (cur : JStr) (path visited : List Point)
      (s : SolveState), w ∈ s.found →
      w ∈ (dfsAll g t rows cols fuel row col cur path visited s).found := by
  intro fuel
  induction fuel with
  | zero => intro _ _ _ _ _ s h; exact h
  | succ fuel ih =>
    intro row col cur path visited s h
    show w ∈ (dfsAll g t rows cols (fuel + 1) row col cur path visited s).found
    rw [dfsAll]
    split
    · exact h
    · split
      · exact h
      · split
        · exact h
        · rename_i n heq
          refine foldl_preserve (fun st => w ∈ st.found) _
            (fun st dir hst => ih _ _ _ _ _ st hst) DIR8 _ ?_
          cases hrec : recWord n s.found with
          | some wd => simp only [hrec]; exact List.mem_append_left _ h
          | none => simp only [hrec]; exact h

theorem dfsAll_sols_mono (g : Grid) (t : TrieNode) (rows cols : Nat) (F : FoundWord) :
    ∀ (fuel : Nat) (row col : Int) (cur : JStr) (path visited : List Point)
      (s : SolveState), F ∈ s.sols →
      F ∈ (dfsAll g t rows cols fuel row col cur path visited s).sols := by
  intro fuel
  induction fuel with
  | zero => intro _ _ _ _ _ s h; exact h
  | succ fuel ih =>
    intro row col cur path visited s h
    rw [dfsAll]
    split
    · exact h
    · split
      · exact h
      · split
        · exact h
        · rename_i n heq
          refine foldl_preserve (fun st => F ∈ st.sols) _
            (fun st dir hst => ih _ _ _ _ _ st hst) DIR8 _ ?_
          cases hrec : recWord n s.found with
          | some wd => simp only [hrec]; exact List.mem_append_left _ h
          | none => simp only [hrec]; exact h

theorem dfsAll_foundCorr (g : Grid) (t : TrieNode) (rows cols : Nat) :
    ∀ (fuel : Nat) (row col : Int) (cur : JStr) (path visited : List Point)
      (s : SolveState),
      (∀ w ∈ s.found, ∃ F ∈ s.sols, F.word = w) →
      ∀ w ∈ (dfsAll g t rows cols fuel row col cur path visited s).found,
        ∃ F ∈ (dfsAll g t rows cols fuel row col cur path visited s).sols,
          F.word = w := by
  intro fuel
  induction fuel with
  | zero => intro _ _ _ _ _ s h; exact h
  | succ fuel ih =>
    intro row col cur path visited s h
    rw [dfsAll]
    split
    · exact h
    · split
      · exact h
      · split
        · exact h
        · rename_i n heq
          refine foldl_preserve
            (fun st => ∀ w ∈ st.found, ∃ F ∈ st.sols, F.word = w) _
            (fun st dir hst => ih _ _ _ _ _ st hst) DIR8 _ ?_
          cases hrec : recWord n s.found with
          | none => simp only [hrec]; exact h
          | some wd =>
            simp only [hrec]
            intro w hw
            rcases List.mem_append.mp hw with hw' | hw'
            · obtain ⟨F, hF, hFw⟩ := h w hw'
              exact ⟨F, List.mem_append_left _ hF, hFw⟩
            · rcases List.mem_cons.mp hw' with rfl | hw''
              · refine ⟨⟨w, path.headD ⟨row, col⟩, ⟨row, col⟩, path ++ [⟨row, col⟩]⟩,
                  List.mem_append_right _ (List.mem_cons_self _ _), rfl⟩
              · exact absurd hw'' (List.not_mem_nil w)

theorem getNode_record (ws : List JStr) (str : JStr) (n : TrieNode)
    (excl : List JStr) (wd : JStr)
    (h1 : Trie.getNode (Trie.fromWords ws) str = some n)
    (h2 : recWord n excl = some wd) :
    wd = upper str ∧ (∃ w' ∈ ws, upper w' = upper str) ∧ wd ≠ [] ∧ wd ∉ excl := by
  unfold Trie.getNode at h1
  have hend : endAt (Trie.fromWords ws) (upper str) = n.isEndOfWord := by
    unfold endAt; rw [h1]
  have hwrd : wordAt (Trie.fromWords ws) (upper str) = n.word := by
    unfold wordAt; rw [h1]
  unfold recWord at h2
  cases hw : n.word with
  | none => rw [hw] at h2; exact absurd h2 (by simp)
  | some wd' =>
    rw [hw] at h2
    have h3 : (if n.isEndOfWord = true ∧ wd' ≠ [] ∧ wd' ∉ excl
        then some wd' else none) = some wd := h2
    clear h2
    split at h3
    · rename_i hcond
      obtain ⟨hendT, hne, hnex⟩ := hcond
      injection h3 with h2'
      subst h2'
      have hendtrue : endAt (Trie.fromWords ws) (upper str) = true := by
        rw [hend, hendT]
      have hwok := wordAt_fromWords ws (upper str)
      rw [hwrd, hw, if_pos hendtrue] at hwok
      injection hwok with hwok'
      exact ⟨hwok', (endAt_fromWords ws (upper str)).mp hendtrue, hne, hnex⟩
    · exact absurd h3 (by simp)

theorem dfsAll_solsFromWords (g : Grid) (ws : List JStr) (rows cols : Nat) :
    ∀ (fuel : Nat) (row col : Int) (cur : JStr) (path visited : List Point)
      (s : SolveState),
      (∀ F ∈ s.sols, ∃ w' ∈ ws, F.word = upper w') →
      ∀ F ∈ (dfsAll g (Trie.fromWords ws) rows cols fuel row col cur path
        visited s).sols, ∃ w' ∈ ws, F.word = upper w' := by
  intro fuel
  induction fuel with
  | zero => intro _ _ _ _ _ s h; exact h
  | succ fuel ih =>
    intro row col cur path visited s h
    rw [dfsAll]
    split
    · exact h
    · split
      · exact h
      · split
        · exact h
        · rename_i n heq
          refine foldl_preserve
            (fun st => ∀ F ∈ st.sols, ∃ w' ∈ ws, F.word = upper w') _
            (fun st dir hst => ih _ _ _ _ _ st hst) DIR8 _ ?_
          cases hrec : recWord n s.found with
          | none => simp only [hrec]; exact h
          | some wd =>
            simp only [hrec]
            intro F hF
            rcases List.mem_append.mp hF with hF' | hF'
            · exact h F hF'
            · rcases List.mem_cons.mp hF' with rfl | hF''
              · obtain ⟨hwd, ⟨w', hw', hww⟩, _, _⟩ :=
                  getNode_record ws _ n s.found wd heq hrec
                exact ⟨w', hw', by rw [hwd, ← hww]⟩
              · exact absurd hF'' (List.not_mem_nil F)

theorem headD_append_singleton {α : Type} (l : List α) (p d : α) :
    (l ++ [p]).headD d = l.headD p := by
  cases l <;> rfl

theorem getLastD_append_singleton {α : Type} (l : List α) (p d : α) :
    (l ++ [p]).getLastD d = p := by
  induction l generalizing d with
  | nil => rfl
  | cons x xs ih => rw [List.cons_append, List.getLastD_cons, ih]

theorem nodup_append_singleton {α : Type} (l : List α) (p : α)
    (h : l.Nodup) (hp : p ∉ l) : (l ++ [p]).Nodup := by
  rw [List.nodup_append]
  refine ⟨h, List.nodup_singleton p, ?_⟩
  intro a ha hb
  rcases List.mem_singleton.mp hb with rfl
  exact hp ha

theorem chain'_append_singleton (l : List Point) (p : Point)
    (h : List.Chain' adj8 l) (hl : ∀ x ∈ l.getLast?, adj8 x p) :
    List.Chain' adj8 (l ++ [p]) := by
  refine List.Chain'.append h (List.chain'_singleton p) ?_
  intro x hx y hy
  rcases List.mem_singleton.mp (by simpa using hy) with rfl
  exact hl x hx

theorem pathStr_append (g : Grid) (l : List Point) (p : Point) :
    pathStr g (l ++ [p]) = pathStr g l ++ cellStr (gridGet g p.row p.col) := by
  unfold pathStr
  rw [List.flatMap_append]
  simp

theorem foldl_preserve_of_mem {σ α : Type} (P : σ → Prop) (f : σ → α → σ) :
    ∀ (l : List α), (∀ s x, x ∈ l → P s → P (f s x)) →
      ∀ s, P s → P (List.foldl f s l) := by
  intro l
  induction l with
  | nil => intro _ s h; exact h
  | cons x xs ih =>
    intro hstep s h
    exact ih (fun s' x' hx' h' => hstep s' x' (List.mem_cons_of_mem _ hx') h')
      (f s x) (hstep s x (List.mem_cons_self _ _) h)

theorem dfsAll_foundOk (g : Grid) (ws : List JStr) (rows cols : Nat) :
    ∀ (fuel : Nat) (row col : Int) (cur : JStr) (path visited : List Point)
      (s : SolveState),
      cur = pathStr g path →
      path.Nodup →
      List.Chain' adj8 path →
      (∀ p ∈ path, p ∈ visited) →
      (∀ p ∈ path, inB rows cols p.row p.col) →
      (∀ x ∈ path.getLast?, adj8 x ⟨row, col⟩) →
      (∀ F ∈ s.sols, FoundOk rows cols g F) →
      ∀ F ∈ (dfsAll g (Trie.fromWords ws) rows cols fuel row col cur path
        visited s).sols, FoundOk rows cols g F := by
  intro fuel
  induction fuel with
  | zero => intro _ _ _ _ _ s _ _ _ _ _ _ hs; exact hs
  | succ fuel ih =>
    intro row col cur path visited s hcur hnd hch hsub hinb hlast hs
    rw [dfsAll]
    split
    · exact hs
    · split
      · exact hs
      · rename_i hb hv
        split
        · exact hs
        · rename_i n heq
          have hcell : (⟨row, col⟩ : Point) ∉ visited := hv
          have hbb : inB rows cols row col := not_not.mp hb
          have hnotinpath : (⟨row, col⟩ : Point) ∉ path :=
            fun hmem => hcell (hsub _ hmem)
          have hnd' : (path ++ [(⟨row, col⟩ : Point)]).Nodup :=
            nodup_append_singleton _ _ hnd hnotinpath
          have hch' : List.Chain' adj8 (path ++ [(⟨row, col⟩ : Point)]) :=
            chain'_append_singleton _ _ hch hlast
          have hinb' : ∀ p ∈ path ++ [(⟨row, col⟩ : Point)],
              inB rows cols p.row p.col := by
            intro p hp
            rcases List.mem_append.mp hp with hp' | hp'
            · exact hinb p hp'
            · rcases List.mem_singleton.mp hp' with rfl
              exact hbb
          have hcur' : cur ++ cellStr (gridGet g row col)
              = pathStr g (path ++ [(⟨row, col⟩ : Point)]) := by
            rw [pathStr_append, hcur]
          refine foldl_preserve_of_mem
            (fun st => ∀ F ∈ st.sols, FoundOk rows cols g F) _
            DIR8 (fun st dir hdir hst =>
              ih (row + dir.1) (col + dir.2) _ _ _ st hcur' hnd' hch' ?_ hinb'
                ?_ hst)
            _ ?_
          · intro p hp
            rcases List.mem_append.mp hp with hp' | hp'
            · exact List.mem_cons_of_mem _ (hsub p hp')
            · rcases List.mem_singleton.mp hp' with rfl
              exact List.mem_cons_self _ _
          · intro x hx
            rw [List.getLast?_concat] at hx
            rcases Option.mem_some_iff.mp hx with rfl
            show adj8 (⟨row, col⟩ : Point) ⟨row + dir.1, col + dir.2⟩
            unfold adj8
            have h1 : row + dir.1 - row = dir.1 := by ring
            have h2 : col + dir.2 - col = dir.2 := by ring
            rw [h1, h2, Prod.mk.eta]
            exact hdir
          · cases hrec : recWord n s.found with
            | none => simp only [hrec]; exact hs
            | some wd =>
              simp only [hrec]
              intro F hF
              rcases List.mem_append.mp hF with hF' | hF'
              · exact hs F hF'
              · rcases List.mem_cons.mp hF' with rfl | hF''
                · obtain ⟨hwd, _, _, _⟩ :=
                    getNode_record ws _ n s.found wd heq hrec
                  refine ⟨by simp, (headD_append_singleton path _ _).symm,
                    (getLastD_append_singleton path _ _).symm, hnd', hch',
                    hinb', ?_⟩
                  show wd = upper (pathStr g (path ++ [(⟨row, col⟩ : Point)]))
                  rw [← hcur']
                  exact hwd
                · exact absurd hF'' (List.not_mem_nil F)

theorem sdfs_attempts_le (g : Grid) (t : TrieNode) (rows cols : Nat)
    (excl : List JStr) (maxA : Nat) :
    ∀ (fuel : Nat) (row col : Int) (cur : JStr) (path visited : List Point)
      (s : SearchState), s.attempts ≤ maxA →
      (sdfs g t rows cols excl maxA fuel row col cur path visited s).2.attempts
        ≤ maxA := by
  intro fuel
  induction fuel with
  | zero => intro _ _ _ _ _ s h; exact h
  | succ fuel ih =>
    intro row col cur path visited s h
    rw [sdfs]
    split
    · exact h
    · rename_i hlt
      have h1 : s.attempts + 1 ≤ maxA := by omega
      split
      · exact h1
      · split
        · exact h1
        · split
          · exact h1
          · rename_i n heq
            split
            · exact h1
            · refine foldl_preserve
                (fun (acc : Bool × SearchState) => acc.2.attempts ≤ maxA) _
                (fun acc dir hacc => ?_) DIR8 _ h1
              by_cases hb : acc.1
              · rw [if_pos hb]; exact hacc
              · rw [if_neg hb]; exact ih _ _ _ _ _ acc.2 hacc

theorem searchFromCell_attempts_le (g : Grid) (t : TrieNode) (rows cols : Nat)
    (excl : List JStr) (maxA : Nat) (row col : Int) :
    (searchFromCell g t rows cols excl maxA row col).attempts ≤ maxA :=
  sdfs_attempts_le g t rows cols excl maxA _ row col [] [] [] ⟨0, none⟩
    (Nat.zero_le maxA)

theorem findNextLoop_total_le (g : Grid) (t : TrieNode) (rows cols : Nat)
    (af : List JStr) (maxA : Nat) :
    ∀ (ps : List Point) (att : Nat), att ≤ maxA →
      (findNextLoop g t rows cols af maxA ps att).2 ≤ maxA := by
  intro ps
  induction ps with
  | nil => intro att h; exact h
  | cons p ps ih =>
    intro att h
    rw [findNextLoop]
    split
    · exact h
    · rename_i hlt
      have hs := searchFromCell_attempts_le g t rows cols af (maxA - att) p.row p.col
      split
      · rename_i attUsed f hcase
        split
        · rw [hcase] at hs
          simp only at hs
          omega
        · refine ih (att + attUsed) ?_
          rw [hcase] at hs
          simp only at hs
          omega
      · rename_i attUsed hcase
        refine ih (att + attUsed) ?_
        rw [hcase] at hs
        simp only at hs
        omega

theorem findNextLoop_zero_budget (g : Grid) (t : TrieNode) (rows cols : Nat)
    (af : List JStr) :
    ∀ (ps : List Point) (att : Nat),
      (findNextLoop g t rows cols af 0 ps att).1 = none := by
  intro ps att
  cases ps with
  | nil => rfl
  | cons p ps =>
    rw [findNextLoop, if_pos (Nat.zero_le att)]

/-- Claim C6: findNextWord with a zero budget returns none for every grid,
word list, position order and already-found set; and the total number of DFS
node visits consumed by one findNextWord call never exceeds the budget. -/
theorem claim_C6_budget_respected (g : Grid) (ws : List JStr)
    (positions : List Point) (alreadyFound : List JStr) :
    findNextWord g ws positions alreadyFound 0 = none ∧
    ∀ maxAttempts : Nat,
      (findNextWordAux g ws positions alreadyFound maxAttempts).2 ≤ maxAttempts := by
  constructor
  · exact findNextLoop_zero_budget g (Trie.fromWords ws) (solverRows g)
      (solverCols g) alreadyFound positions 0
  · intro maxAttempts
    exact findNextLoop_total_le g (Trie.fromWords ws) (solverRows g)
      (solverCols g) alreadyFound maxAttempts positions 0 (Nat.zero_le _)

theorem sdfs_foundOk (g : Grid) (ws : List JStr) (rows cols : Nat)
    (excl : List JStr) (maxA : Nat) :
    ∀ (fuel : Nat) (row col : Int) (cur : JStr) (path visited : List Point)
      (s : SearchState),
      cur = pathStr g path →
      path.Nodup →
      List.Chain' adj8 path →
      (∀ p ∈ path, p ∈ visited) →
      (∀ p ∈ path, inB rows cols p.row p.col) →
      (∀ x ∈ path.getLast?, adj8 x ⟨row, col⟩) →
      (∀ F, s.found = some F → FoundOk rows cols g F) →
      ∀ F, (sdfs g (Trie.fromWords ws) rows cols excl maxA fuel row col cur
        path visited s).2.found = some F → FoundOk rows cols g F := by
  intro fuel
  induction fuel with
  | zero => intro _ _ _ _ _ s _ _ _ _ _ _ hs; exact hs
  | succ fuel ih =>
    intro row col cur path visited s hcur hnd hch hsub hinb hlast hs
    rw [sdfs]
    split
    · exact hs
    · split
      · exact hs
      · split
        · exact hs
        · rename_i hb hv
          split
          · exact hs
          · rename_i n heq
            have hcell : (⟨row, col⟩ : Point) ∉ visited := hv
            have hbnd : inB rows cols row col := not_not.mp hb
            have hnotinpath : (⟨row, col⟩ : Point) ∉ path :=
              fun hmem => hcell (hsub _ hmem)
            have hnd' : (path ++ [(⟨row, col⟩ : Point)]).Nodup :=
              nodup_append_singleton _ _ hnd hnotinpath
            have hch' : List.Chain' adj8 (path ++ [(⟨row, col⟩ : Point)]) :=
              chain'_append_singleton _ _ hch hlast
            have hinb' : ∀ p ∈ path ++ [(⟨row, col⟩ : Point)],
                inB rows cols p.row p.col := by
              intro p hp
              rcases List.mem_append.mp hp with hp' | hp'
              · exact hinb p hp'
              · rcases List.mem_singleton.mp hp' with rfl
                exact hbnd
            have hcur' : cur ++ cellStr (gridGet g row col)
                = pathStr g (path ++ [(⟨row, col⟩ : Point)]) := by
              rw [pathStr_append, hcur]
            split
            · rename_i wd hrec
              intro F hF
              injection hF with hF'
              subst hF'
              obtain ⟨hwd, _, _, _⟩ := getNode_record ws _ n excl wd heq hrec
              refine ⟨by simp, (headD_append_singleton path _ _).symm,
                (getLastD_append_singleton path _ _).symm, hnd', hch',
                hinb', ?_⟩
              show wd = upper (pathStr g (path ++ [(⟨row, col⟩ : Point)]))
              rw [← hcur']
              exact hwd
            · refine foldl_preserve_of_mem
                (fun (acc : Bool × SearchState) =>
                  ∀ F, acc.2.found = some F → FoundOk rows cols g F) _
                DIR8 (fun acc dir hdir hacc => ?_) _ hs
              by_cases hbb : acc.1
              · rw [if_pos hbb]; exact hacc
              · rw [if_neg hbb]
                refine ih (row + dir.1) (col + dir.2) _ _ _ acc.2 hcur' hnd'
                  hch' ?_ hinb' ?_ hacc
                · intro p hp
                  rcases List.mem_append.mp hp with hp' | hp'
                  · exact List.mem_cons_of_mem _ (hsub p hp')
                  · rcases List.mem_singleton.mp hp' with rfl
                    exact List.mem_cons_self _ _
                · intro x hx
                  rw [List.getLast?_concat] at hx
                  rcases Option.mem_some_iff.mp hx with rfl
                  show adj8 (⟨row, col⟩ : Point) ⟨row + dir.1, col + dir.2⟩
                  unfold adj8
                  have h1 : row + dir.1 - row = dir.1 := by ring
                  have h2 : col + dir.2 - col = dir.2 := by ring
                  rw [h1, h2, Prod.mk.eta]
                  exact hdir

theorem searchFromCell_foundOk (g : Grid) (ws : List JStr) (rows cols : Nat)
    (excl : List JStr) (maxA : Nat) (row col : Int) (F : FoundWord)
    (h : (searchFromCell g (Trie.fromWords ws) rows cols excl maxA row col).found
      = some F) : FoundOk rows cols g F := by
  refine sdfs_foundOk g ws rows cols excl maxA _ row col [] [] [] ⟨0, none⟩
    rfl List.nodup_nil List.chain'_nil (by simp) (by simp) (by simp) ?_ F h
  intro F' hF'
  exact absurd hF' (by simp)

theorem findNextLoop_foundOk (g : Grid) (ws : List JStr) (rows cols : Nat)
    (af : List JStr) (maxA : Nat) :
    ∀ (ps : List Point) (att : Nat) (F : FoundWord),
      (findNextLoop g (Trie.fromWords ws) rows cols af maxA ps att).1 = some F →
      FoundOk rows cols g F := by
  intro ps
  induction ps with
  | nil => intro att F h; exact absurd h (by simp [findNextLoop])
  | cons p ps ih =>
    intro att F h
    rw [findNextLoop] at h
    split at h
    · exact absurd h (by simp)
    · split at h
      · rename_i attUsed f hcase
        split at h
        · injection h with h'
          subst h'
          exact searchFromCell_foundOk g ws rows cols af (maxA - att)
            p.row p.col _ (by rw [hcase])
        · exact ih _ F h
      · exact ih _ F h

/-- Counterexample to C3 as stated: on the grid [[C,A],[T,X]] the solver finds
CAT along a bent path; its start and end are NOT the endpoints of a straight
line spelling the word (reading the straight line from start to end does not
give CAT). -/
theorem claim_C3_counterexample :
    ∃ F ∈ findAllWords [[some 67, some 65], [some 84, some 88]] [[67, 65, 84]],
      F.start = F.path.headD ⟨0, 0⟩ ∧ F.endPt = F.path.getLastD ⟨0, 0⟩ ∧
      lineRead [[some 67, some 65], [some 84, some 88]]
        ⟨F.word, F.start, F.endPt⟩ ≠ F.word.map some := by
  decide

/-- Claim C3 (amended): every FoundWord produced by findAllWords or
findNextWord is well-formed path-wise: start is the first and end the last
cell of a non-empty simple path of 8-adjacent in-bounds cells, and the word
is the case-normalized string read along that path (empty cells contribute
nothing, so the path may be longer than the word on partially filled grids).
The path need not be straight: the DFS turns freely, so the straight-line
clause of the original claim is dropped (see the counterexample). -/
theorem claim_C3_found_wellformed :
    (∀ (g : Grid) (ws : List JStr) (F : FoundWord),
      F ∈ findAllWords g ws → FoundOk (solverRows g) (solverCols g) g F) ∧
    (∀ (g : Grid) (ws : List JStr) (positions : List Point)
       (alreadyFound : List JStr) (maxAttempts : Nat) (F : FoundWord),
      findNextWord g ws positions alreadyFound maxAttempts = some F →
      FoundOk (solverRows g) (solverCols g) g F) := by
  constructor
  · intro g ws F hF
    unfold findAllWords at hF
    revert F hF
    refine foldl_preserve
      (fun (s : SolveState) =>
        ∀ F ∈ s.sols, FoundOk (solverRows g) (solverCols g) g F) _
      (fun s r hs => ?_) _ _ (by intro F hF; exact absurd hF (by simp))
    refine foldl_preserve
      (fun (s : SolveState) =>
        ∀ F ∈ s.sols, FoundOk (solverRows g) (solverCols g) g F) _
      (fun s c hs => ?_) _ _ hs
    exact dfsAll_foundOk g ws (solverRows g) (solverCols g) _ _ _ _ _ _ s
      rfl List.nodup_nil List.chain'_nil (by simp) (by simp) (by simp) hs
  · intro g ws positions alreadyFound maxAttempts F h
    exact findNextLoop_foundOk g ws (solverRows g) (solverCols g)
      alreadyFound maxAttempts positions 0 F h

/-- Witness for C3 (amended) at a concrete grid: the bent CAT found on
[[C,A],[T,X]] satisfies the path-wise well-formedness. -/
theorem claim_C3_found_wellformed_witness :
    FoundOk 2 2 [[some 67, some 65], [some 84, some 88]]
      ⟨[67, 65, 84], ⟨0, 0⟩, ⟨1, 0⟩, [⟨0, 0⟩, ⟨0, 1⟩, ⟨1, 0⟩]⟩ :=
  claim_C3_found_wellformed.1 [[some 67, some 65], [some 84, some 88]]
    [[67, 65, 84]] ⟨[67, 65, 84], ⟨0, 0⟩, ⟨1, 0⟩, [⟨0, 0⟩, ⟨0, 1⟩, ⟨1, 0⟩]⟩
    (by decide)

theorem foldl_id {σ α : Type} : ∀ (l : List α) (s : σ),
    List.foldl (fun s _ => s) s l = s := by
  intro l
  induction l with
  | nil => intro s; rfl
  | cons x xs ih => intro s; exact ih s

/-- Claim C10: a degenerate grid (no rows, or a first row of zero length) is
safe at the public interface: the constructor derives cols = 0, findAllWords
returns the empty list, and findNextWord returns none for every already-found
set and budget (the scan loops never touch the grid). -/
theorem claim_C10_degenerate_grid (g : Grid) (ws : List JStr)
    (alreadyFound : List JStr) (maxAttempts : Nat) (positions : List Point)
    (hdeg : g = [] ∨ g.headD [] = []) :
    solverCols g = 0 ∧
    findAllWords g ws = [] ∧
    (positions.Perm (allPositions (solverRows g) (solverCols g)) →
      findNextWord g ws positions alreadyFound maxAttempts = none) := by
  have hc : solverCols g = 0 := by
    rcases hdeg with rfl | h
    · rfl
    · unfold solverCols
      rw [h]
      rfl
  refine ⟨hc, ?_, ?_⟩
  · unfold findAllWords
    rw [hc]
    simp only [List.range_zero, List.foldl_nil]
    rw [foldl_id]
  · intro hperm
    have hpos : allPositions (solverRows g) (solverCols g) = [] := by
      rw [hc]
      unfold allPositions
      simp
    rw [hpos] at hperm
    have hnil : positions = [] := List.Perm.eq_nil hperm
    subst hnil
    rfl

/-- Witness for C10 on the empty grid. -/
theorem claim_C10_degenerate_grid_witness :
    findNextWord [] [[65]] [] [] 500 = none :=
  (claim_C10_degenerate_grid [] [[65]] [] 500 [] (Or.inl rfl)).2.2 (by decide)

theorem hookRender_events (ict ga : Bool) (pf cf : List JStr) (s : HookState) :
    (hookRender ict ga pf cf s).events = s.events := by
  unfold hookRender
  split
  · rfl
  · cases s.pendingRef <;> rfl

theorem hookRender_cancelled_mono (ict ga : Bool) (pf cf : List JStr)
    (s : HookState) (x : Nat) (h : x ∈ s.cancelled) :
    x ∈ (hookRender ict ga pf cf s).cancelled := by
  unfold hookRender
  split <;> cases hp : s.pendingRef <;> by_cases hpc : s.prevCleanup <;>
    simp [hp, hpc] <;> tauto

theorem hookRender_cancels_pending (ict ga : Bool) (pf cf : List JStr)
    (s : HookState) (t : Nat) (hng : ¬ (ict = true ∧ ga = true))
    (hp : s.pendingRef = some t) :
    t ∈ (hookRender ict ga pf cf s).cancelled := by
  unfold hookRender
  rw [if_neg hng, hp]
  exact List.mem_cons_self _ _

theorem hookFire_cancelled (g : Grid) (ws : List JStr) (positions : List Point)
    (id : Nat) (s : HookState) :
    (hookFire g ws positions id s).cancelled = s.cancelled := by
  unfold hookFire
  cases s.armed.find? (fun tr => tr.id == id) with
  | none => rfl
  | some tr =>
    dsimp only
    by_cases hguard : id ∈ s.cancelled ∨ id ∈ s.fired
    · rw [if_pos hguard]
    · rw [if_neg hguard]
      cases timerAction g ws positions tr <;> rfl

theorem hookFire_events_bound (g : Grid) (ws : List JStr) (positions : List Point)
    (id : Nat) (s : HookState) (t : Nat) (loc : WordLocation)
    (hmem : (t, loc) ∈ (hookFire g ws positions id s).events) :
    (t, loc) ∈ s.events ∨ (t = id ∧ id ∉ s.cancelled ∧ id ∉ s.fired) := by
  unfold hookFire at hmem
  cases hfind : s.armed.find? (fun tr => tr.id == id) with
  | none => rw [hfind] at hmem; exact Or.inl hmem
  | some tr =>
    rw [hfind] at hmem
    dsimp only at hmem
    by_cases hguard : id ∈ s.cancelled ∨ id ∈ s.fired
    · rw [if_pos hguard] at hmem
      exact Or.inl hmem
    · rw [if_neg hguard] at hmem
      push_neg at hguard
      cases hact : timerAction g ws positions tr with
      | none => rw [hact] at hmem; exact Or.inl hmem
      | some loc' =>
        rw [hact] at hmem
        rcases List.mem_cons.mp hmem with heq | hmem'
        · injection heq with h1 h2
          exact Or.inr ⟨h1, hguard.1, hguard.2⟩
        · exact Or.inl hmem'

theorem hookStep_cancelled_mono (g : Grid) (ws : List JStr)
    (positions : List Point) (st : HookStep) (s : HookState) (x : Nat)
    (h : x ∈ s.cancelled) : x ∈ (hookStep g ws positions s st).cancelled := by
  cases st with
  | render ict ga pf cf => exact hookRender_cancelled_mono ict ga pf cf s x h
  | fire id => rw [show hookStep g ws positions s (.fire id)
      = hookFire g ws positions id s from rfl, hookFire_cancelled]; exact h

theorem hookRun_cancelled_no_event (g : Grid) (ws : List JStr)
    (positions : List Point) :
    ∀ (steps : List HookStep) (s : HookState) (t : Nat) (loc : WordLocation),
      t ∈ s.cancelled →
      (t, loc) ∈ (hookRun g ws positions s steps).events →
      (t, loc) ∈ s.events := by
  intro steps
  induction steps with
  | nil => intro s t loc _ h; exact h
  | cons st rest ih =>
    intro s t loc hcanc hmem
    have hmem' := ih (hookStep g ws positions s st) t loc
      (hookStep_cancelled_mono g ws positions st s t hcanc) hmem
    cases st with
    | render ict ga pf cf =>
      rw [show hookStep g ws positions s (.render ict ga pf cf)
        = hookRender ict ga pf cf s from rfl, hookRender_events] at hmem'
      exact hmem'
    | fire id =>
      rcases hookFire_events_bound g ws positions id s t loc hmem' with h | ⟨rfl, hnc, _⟩
      · exact h
      · exact absurd hcanc hnc

theorem hookStep_events_sound (g : Grid) (ws : List JStr)
    (positions : List Point) (st : HookStep) (s : HookState)
    (hs : ∀ e ∈ s.events, ∃ (af : List JStr) (f : FoundWord) (n : Nat),
      findNextWordAux g ws positions af 500 = (some f, n) ∧
      e.2 = ⟨f.word, f.start, f.endPt⟩) :
    ∀ e ∈ (hookStep g ws positions s st).events,
      ∃ (af : List JStr) (f : FoundWord) (n : Nat),
        findNextWordAux g ws positions af 500 = (some f, n) ∧
        e.2 = ⟨f.word, f.start, f.endPt⟩ := by
  cases st with
  | render ict ga pf cf =>
    intro e he
    rw [show hookStep g ws positions s (.render ict ga pf cf)
      = hookRender ict ga pf cf s from rfl, hookRender_events] at he
    exact hs e he
  | fire id =>
    intro e he
    rw [show hookStep g ws positions s (.fire id)
      = hookFire g ws positions id s from rfl] at he
    unfold hookFire at he
    cases hfind : s.armed.find? (fun tr => tr.id == id) with
    | none => rw [hfind] at he; exact hs e he
    | some tr =>
      rw [hfind] at he
      dsimp only at he
      by_cases hguard : id ∈ s.cancelled ∨ id ∈ s.fired
      · rw [if_pos hguard] at he
        exact hs e he
      · rw [if_neg hguard] at he
        cases hact : timerAction g ws positions tr with
        | none => rw [hact] at he; exact hs e he
        | some loc' =>
          rw [hact] at he
          rcases List.mem_cons.mp he with rfl | he'
          · unfold timerAction at hact
            cases hf : findNextWord g ws positions tr.allFound 500 with
            | none => rw [hf] at hact; exact absurd hact (by simp)
            | some f =>
              rw [hf] at hact
              injection hact with hact'
              refine ⟨tr.allFound, f,
                (findNextWordAux g ws positions tr.allFound 500).2, ?_, ?_⟩
              · unfold findNextWord at hf
                rw [← hf]
              · exact hact'.symm
          · exact hs e he'

theorem hookRun_events_sound (g : Grid) (ws : List JStr) (positions : List Point) :
    ∀ (steps : List HookStep) (s : HookState),
      (∀ e ∈ s.events, ∃ (af : List JStr) (f : FoundWord) (n : Nat),
        findNextWordAux g ws positions af 500 = (some f, n) ∧
        e.2 = ⟨f.word, f.start, f.endPt⟩) →
      ∀ e ∈ (hookRun g ws positions s steps).events,
        ∃ (af : List JStr) (f : FoundWord) (n : Nat),
          findNextWordAux g ws positions af 500 = (some f, n) ∧
          e.2 = ⟨f.word, f.start, f.endPt⟩ := by
  intro steps
  induction steps with
  | nil => intro s hs; exact hs
  | cons st rest ih =>
    intro s hs
    exact ih (hookStep g ws positions s st)
      (hookStep_events_sound g ws positions st s hs)

/-- Claim C9: (1) when the turn-ownership or game-active flag goes false at a
re-render before a pending timer fires, the timer is cancelled and its
callback never fires: no event tagged with that timer can ever appear.
(2) Every onCpuFoundWord invocation in any trace from the initial state
carries a WordLocation built from a successful findNextWord result - the
callback is never invoked with an absent result. -/
theorem claim_C9_opponent_scheduler (g : Grid) (ws : List JStr)
    (positions : List Point) :
    (∀ (s : HookState) (t : Nat) (ict ga : Bool) (pf cf : List JStr)
       (steps : List HookStep) (loc : WordLocation),
      ¬ (ict = true ∧ ga = true) →
      s.pendingRef = some t →
      (∀ loc', (t, loc') ∉ s.events) →
      (t, loc) ∉ (hookRun g ws positions
        (hookStep g ws positions s (.render ict ga pf cf)) steps).events) ∧
    (∀ (steps : List HookStep) (e : Nat × WordLocation),
      e ∈ (hookRun g ws positions hookInit steps).events →
      ∃ (af : List JStr) (f : FoundWord) (n : Nat),
        findNextWordAux g ws positions af 500 = (some f, n) ∧
        e.2 = ⟨f.word, f.start, f.endPt⟩) := by
  constructor
  · intro s t ict ga pf cf steps loc hng hp hnoev hmem
    have hcanc : t ∈ (hookStep g ws positions s (.render ict ga pf cf)).cancelled :=
      hookRender_cancels_pending ict ga pf cf s t hng hp
    have := hookRun_cancelled_no_event g ws positions steps _ t loc hcanc hmem
    rw [show hookStep g ws positions s (.render ict ga pf cf)
      = hookRender ict ga pf cf s from rfl, hookRender_events] at this
    exact hnoev loc this
  · intro steps e he
    refine hookRun_events_sound g ws positions steps hookInit ?_ e he
    intro e' he'
    exact absurd he' (List.not_mem_nil e')

/-- Witness for C9 at a concrete trace: arm on a (true, true) render, flip the
turn flag off, then let the timer's delay elapse - no callback event occurs. -/
theorem claim_C9_opponent_scheduler_witness :
    ((0 : Nat), (⟨[], ⟨0, 0⟩, ⟨0, 0⟩⟩ : WordLocation)) ∉
      (hookRun [] [] []
        (hookStep [] [] []
          (hookStep [] [] [] hookInit (.render true true [] []))
          (.render false true [] []))
        [.fire 0]).events :=
  (claim_C9_opponent_scheduler [] [] []).1
    (hookStep [] [] [] hookInit (.render true true [] [])) 0 false true [] []
    [.fire 0] ⟨[], ⟨0, 0⟩, ⟨0, 0⟩⟩ (by simp)
    (by decide)
    (by intro loc' h; simp [hookStep, hookRender, hookInit] at h)

theorem isPreB_take : ∀ (l : JStr) (i : Nat), isPreB (l.take i) l = true := by
  intro l
  induction l with
  | nil => intro i; cases i <;> rfl
  | cons x xs ih =>
    intro i
    cases i with
    | zero => rfl
    | succ i =>
      show isPreB (x :: xs.take i) (x :: xs) = true
      have h : isPreB (x :: xs.take i) (x :: xs) = ((x == x) && isPreB (xs.take i) xs) := rfl
      rw [h, ih i]
      simp

theorem fromWords_take_isSome (ws : List JStr) (u w0 : JStr)
    (hw : w0 ∈ ws) (hu : upper w0 = u) (i : Nat) :
    (traverse (Trie.fromWords ws) (u.take i)).isSome = true := by
  unfold Trie.fromWords
  rw [traverse_foldl_isSome]
  exact Or.inr ⟨w0, hw, by rw [hu]; exact isPreB_take u i⟩

theorem line_pt_inj (r0 c0 dr dc : Int) (hne : ¬ (dr = 0 ∧ dc = 0)) (i j : Nat)
    (h : (⟨r0 + dr * (i : Int), c0 + dc * (i : Int)⟩ : Point)
       = ⟨r0 + dr * (j : Int), c0 + dc * (j : Int)⟩) : i = j := by
  rw [Point.mk.injEq] at h
  obtain ⟨h1, h2⟩ := h
  have hA : dr * ((i : Int) - (j : Int)) = 0 := by
    rw [mul_sub]
    omega
  have hB : dc * ((i : Int) - (j : Int)) = 0 := by
    rw [mul_sub]
    omega
  rcases mul_eq_zero.mp hA with hdr | hij
  · rcases mul_eq_zero.mp hB with hdc | hij
    · exact absurd ⟨hdr, hdc⟩ hne
    · omega
  · omega

theorem line_length_le (rows cols : Nat) (r0 c0 dr dc : Int) (n : Nat)
    (hne : ¬ (dr = 0 ∧ dc = 0))
    (hin : ∀ i < n, inB rows cols (r0 + dr * (i : Int)) (c0 + dc * (i : Int))) :
    n ≤ rows * cols := by
  classical
  have hinj : ∀ i ∈ List.range n, ∀ j ∈ List.range n,
      (fun (i : Nat) => ((r0 + dr * (i : Int), c0 + dc * (i : Int)) : Int × Int)) i
        = (fun (i : Nat) => ((r0 + dr * (i : Int), c0 + dc * (i : Int)) : Int × Int)) j
      → i = j := by
    intro i _ j _ hf
    rw [Prod.mk.injEq] at hf
    exact line_pt_inj r0 c0 dr dc hne i j (by rw [Point.mk.injEq]; exact hf)
  have hnd : ((List.range n).map
      (fun (i : Nat) => ((r0 + dr * (i : Int), c0 + dc * (i : Int)) : Int × Int))).Nodup :=
    List.Nodup.map_on hinj (List.nodup_range n)
  have hsub : ((List.range n).map
      (fun (i : Nat) => ((r0 + dr * (i : Int), c0 + dc * (i : Int)) : Int × Int))).toFinset
      ⊆ (Finset.Ico (0 : Int) (rows : Int)) ×ˢ (Finset.Ico (0 : Int) (cols : Int)) := by
    intro x hx
    rw [List.mem_toFinset] at hx
    obtain ⟨i, hi, rfl⟩ := List.mem_map.mp hx
    rw [List.mem_range] at hi
    obtain ⟨ha, hb, hc, hd⟩ := hin i hi
    rw [Finset.mem_product, Finset.mem_Ico, Finset.mem_Ico]
    exact ⟨⟨ha, hb⟩, hc, hd⟩
  have hcard := Finset.card_le_card hsub
  rw [List.toFinset_card_of_nodup hnd, List.length_map, List.length_range,
    Finset.card_product, Int.card_Ico, Int.card_Ico] at hcard
  simp only [sub_zero, Int.toNat_natCast] at hcard
  exact hcard

theorem dirStep_mem_DIR8 (d : Direction) : dirStep d ∈ DIR8 := by
  cases d <;> decide

theorem DIR8_ne_zero (dr dc : Int) (h : (dr, dc) ∈ DIR8) : ¬ (dr = 0 ∧ dc = 0) := by
  intro hz
  obtain ⟨h1, h2⟩ := hz
  subst h1
  subst h2
  revert h
  decide

theorem solver_dims_of_WF (g : Grid) (rows cols : Nat)
    (hwf : WFGrid g rows cols) (hrows : 1 ≤ rows) :
    solverRows g = rows ∧ solverCols g = cols := by
  obtain ⟨hlen, hall⟩ := hwf
  refine ⟨hlen, ?_⟩
  cases g with
  | nil => rw [← hlen] at hrows; exact absurd hrows (by simp)
  | cons row rest =>
    show row.length = cols
    exact hall row (List.mem_cons_self _ _)

theorem dfsAll_complete (g : Grid) (ws : List JStr) (rows cols : Nat)
    (u : JStr) (r0 c0 dr dc : Int)
    (hdir : (dr, dc) ∈ DIR8)
    (hupper : upper u = u)
    (hend : endAt (Trie.fromWords ws) u = true)
    (hpre : ∀ i, i ≤ u.length →
      (traverse (Trie.fromWords ws) (u.take i)).isSome = true)
    (hcells : ∀ i < u.length,
      inB rows cols (r0 + dr * (i : Int)) (c0 + dc * (i : Int)) ∧
      gridGet g (r0 + dr * (i : Int)) (c0 + dc * (i : Int)) = some (u.getD i 0)) :
    ∀ (fuel : Nat), ∀ (k : Nat), k < u.length → u.length - k ≤ fuel →
      ∀ (path vl : List Point) (s : SolveState),
        (∀ i, k ≤ i → i < u.length →
          (⟨r0 + dr * (i : Int), c0 + dc * (i : Int)⟩ : Point) ∉ vl) →
        u ∈ (dfsAll g (Trie.fromWords ws) rows cols fuel
          (r0 + dr * (k : Int)) (c0 + dc * (k : Int)) (u.take k) path vl s).found := by
  have hne := DIR8_ne_zero dr dc hdir
  intro fuel
  induction fuel with
  | zero =>
    intro k hk hf
    exact absurd hf (by omega)
  | succ fuel ih =>
    intro k hk hf path vl s hvl
    obtain ⟨hinb, hcell⟩ := hcells k hk
    have hnw : u.take k ++ cellStr (gridGet g (r0 + dr * (k : Int))
        (c0 + dc * (k : Int))) = u.take (k + 1) := by
      rw [hcell]
      show u.take k ++ [u.getD k 0] = u.take (k + 1)
      rw [List.getD_eq_getElem u 0 hk, ← List.concat_eq_append, List.take_concat_get]
    rw [dfsAll, hnw]
    split
    · rename_i hcond
      exact absurd hinb hcond
    · split
      · rename_i hcond₂ hcond
        exact absurd hcond (hvl k (le_refl k) hk)
      · split
        · rename_i heq
          have hup : upper (u.take (k + 1)) = u.take (k + 1) := by
            show (u.take (k + 1)).map upChar = u.take (k + 1)
            rw [List.map_take, show u.map upChar = u from hupper]
          have hsome : (Trie.getNode (Trie.fromWords ws)
              (u.take (k + 1))).isSome = true := by
            unfold Trie.getNode
            rw [hup]
            exact hpre (k + 1) (by omega)
          rw [heq] at hsome
          exact absurd hsome (by simp)
        · rename_i nd heq
          by_cases hkend : k + 1 = u.length
          · have htk : u.take (k + 1) = u := by
              rw [hkend]
              exact List.take_length u
            rw [htk] at heq
            have htrav : traverse (Trie.fromWords ws) u = some nd := by
              unfold Trie.getNode at heq
              rw [hupper] at heq
              exact heq
            have hnde : nd.isEndOfWord = true := by
              have h := hend
              unfold endAt at h
              rw [htrav] at h
              exact h
            have hndw : nd.word = some u := by
              have h := wordAt_fromWords ws u
              unfold wordAt at h
              rw [htrav, if_pos hend] at h
              exact h
            have hune : u ≠ [] := by
              intro h0
              rw [h0] at hk
              exact absurd hk (by simp)
            refine foldl_preserve (fun (st : SolveState) => u ∈ st.found) _
              (fun st dir hst => dfsAll_found_mono g (Trie.fromWords ws) rows cols u
                fuel _ _ _ _ _ st hst) DIR8 _ ?_
            have hrw : recWord nd s.found
                = (if nd.isEndOfWord = true ∧ u ≠ [] ∧ u ∉ s.found
                   then some u else none) := by
              unfold recWord
              rw [hndw]
            cases hrec : recWord nd s.found with
            | some wd =>
              have hrec2 := hrec
              rw [hrw] at hrec2
              have hwdu : wd = u := by
                split at hrec2
                · injection hrec2 with h'
                  exact h'.symm
                · exact absurd hrec2 (by simp)
              simp only [hrec]
              rw [hwdu]
              exact List.mem_append_right _ (List.mem_singleton_self u)
            | none =>
              have hrec2 := hrec
              rw [hrw] at hrec2
              have hmem : u ∈ s.found := by
                split at hrec2
                · exact absurd hrec2 (by simp)
                · rename_i hcond3
                  by_contra hnot
                  exact hcond3 ⟨hnde, hune, hnot⟩
              simp only [hrec]
              exact hmem
          · have hk1 : k + 1 < u.length := by omega
            refine foldl_establish (fun (st : SolveState) => u ∈ st.found) _ (dr, dc)
              (fun st => ?_)
              (fun st dir hst => dfsAll_found_mono g (Trie.fromWords ws) rows cols u
                fuel _ _ _ _ _ st hst) DIR8 _ hdir
            have harg1 : r0 + dr * ((k : Nat) : Int) + (dr, dc).1
                = r0 + dr * (((k + 1 : Nat) : Nat) : Int) := by
              push_cast
              ring
            have harg2 : c0 + dc * ((k : Nat) : Int) + (dr, dc).2
                = c0 + dc * (((k + 1 : Nat) : Nat) : Int) := by
              push_cast
              ring
            rw [harg1, harg2]
            refine ih (k + 1) hk1 (by omega) _ _ st ?_
            intro i hi1 hi2 hmem
            rcases List.mem_cons.mp hmem with heqp | hmem'
            · have : i = k := line_pt_inj r0 c0 dr dc hne i k heqp
              omega
            · exact hvl i (by omega) hi2 hmem'

theorem findAllWords_contains (g : Grid) (ws : List JStr) (rows cols : Nat)
    (hwf : WFGrid g rows cols) (u : JStr) (r0 c0 : Int) (d : Direction)
    (hupper : upper u = u)
    (hmemw : ∃ w0 ∈ ws, upper w0 = u)
    (hune : u ≠ [])
    (hcells : ∀ i < u.length,
      inB rows cols (cellPt r0 c0 d i).row (cellPt r0 c0 d i).col ∧
      gridGet g (cellPt r0 c0 d i).row (cellPt r0 c0 d i).col
        = some (u.getD i 0)) :
    ∃ F ∈ findAllWords g ws, F.word = u := by
  obtain ⟨w0, hw0, hw0u⟩ := hmemw
  have hn1 : 0 < u.length := List.length_pos.mpr hune
  have hdir8 : ((dirStep d).1, (dirStep d).2) ∈ DIR8 := by
    rw [Prod.mk.eta]
    exact dirStep_mem_DIR8 d
  have hne := DIR8_ne_zero _ _ hdir8
  have hcells' : ∀ i < u.length,
      inB rows cols (r0 + (dirStep d).1 * (i : Int)) (c0 + (dirStep d).2 * (i : Int)) ∧
      gridGet g (r0 + (dirStep d).1 * (i : Int)) (c0 + (dirStep d).2 * (i : Int))
        = some (u.getD i 0) := hcells
  have e1 : r0 + (dirStep d).1 * (((0 : Nat)) : Int) = r0 := by push_cast; ring
  have e2 : c0 + (dirStep d).2 * (((0 : Nat)) : Int) = c0 := by push_cast; ring
  have hb0 := (hcells' 0 hn1).1
  rw [e1, e2] at hb0
  obtain ⟨hr1, hr2, hc1, hc2⟩ := hb0
  have hrows1 : 1 ≤ rows := by omega
  have hdims := solver_dims_of_WF g rows cols hwf hrows1
  have hend : endAt (Trie.fromWords ws) u = true :=
    (endAt_fromWords ws u).mpr ⟨w0, hw0, hw0u⟩
  have hpre := fromWords_take_isSome ws u w0 hw0 hw0u
  have hlen_le := line_length_le rows cols r0 c0 (dirStep d).1 (dirStep d).2
    u.length hne (fun i hi => (hcells' i hi).1)
  have hcomplete := dfsAll_complete g ws rows cols u r0 c0
    (dirStep d).1 (dirStep d).2 hdir8 hupper hend (fun i hi => hpre i)
    hcells' (rows * cols + 1) 0 hn1 (by omega)
  have err : (((r0.toNat : Nat)) : Int) = r0 := Int.toNat_of_nonneg hr1
  have ecc : (((c0.toNat : Nat)) : Int) = c0 := Int.toNat_of_nonneg hc1
  have hest : ∀ s' : SolveState,
      u ∈ (dfsAll g (Trie.fromWords ws) rows cols (rows * cols + 1)
        ((r0.toNat : Nat) : Int) ((c0.toNat : Nat) : Int) [] [] [] s').found := by
    intro s'
    have hx := hcomplete [] [] s' (by intro i _ _ h; exact absurd h (by simp))
    rw [e1, e2] at hx
    rw [err, ecc]
    exact hx
  have hfound := foldl_establish (fun (s : SolveState) => u ∈ s.found)
    (fun s (r : Nat) =>
      (List.range cols).foldl
        (fun s (c : Nat) =>
          dfsAll g (Trie.fromWords ws) rows cols (rows * cols + 1)
            (r : Int) (c : Int) [] [] [] s) s)
    r0.toNat
    (fun s => foldl_establish (fun (s : SolveState) => u ∈ s.found) _
      c0.toNat (fun s' => hest s')
      (fun s' c hs' => dfsAll_found_mono g (Trie.fromWords ws) rows cols u
        _ _ _ _ _ _ s' hs')
      (List.range cols) s (List.mem_range.mpr (by omega)))
    (fun s r hs => foldl_preserve (fun (s : SolveState) => u ∈ s.found) _
      (fun s' c hs' => dfsAll_found_mono g (Trie.fromWords ws) rows cols u
        _ _ _ _ _ _ s' hs')
      (List.range cols) s hs)
    (List.range rows) (SolveState.mk [] []) (List.mem_range.mpr (by omega))
  have hcorr := foldl_preserve
    (fun (s : SolveState) => ∀ w' ∈ s.found, ∃ F ∈ s.sols, F.word = w')
    (fun s (r : Nat) =>
      (List.range cols).foldl
        (fun s (c : Nat) =>
          dfsAll g (Trie.fromWords ws) rows cols (rows * cols + 1)
            (r : Int) (c : Int) [] [] [] s) s)
    (fun s r hs => foldl_preserve
      (fun (s : SolveState) => ∀ w' ∈ s.found, ∃ F ∈ s.sols, F.word = w') _
      (fun s' c hs' => dfsAll_foundCorr g (Trie.fromWords ws) rows cols
        _ _ _ _ _ _ s' hs')
      (List.range cols) s hs)
    (List.range rows) (SolveState.mk [] [])
    (by intro w' hw'; exact absurd hw' (List.not_mem_nil w'))
  unfold findAllWords
  rw [hdims.1, hdims.2]
  exact hcorr u hfound

/-- Counterexample to C2 as stated: with the word list containing only the
empty string on a 1x2 grid, the generator places the empty word (it passes
validation when the start column is positive), but the solver can never find
it: the DFS only reports words of length at least one. -/
theorem claim_C2_counterexample :
    ∃ L ∈ (generate 1 2 [[]] [[(.HORIZONTAL, 0, 1)]]
      (fun _ _ => (0 : Fin 26))).words,
      ∀ F ∈ findAllWords (generate 1 2 [[]] [[(.HORIZONTAL, 0, 1)]]
        (fun _ _ => (0 : Fin 26))).grid [[]],
        F.word ≠ L.word := by
  decide

/-- Claim C2 (amended): (1) every non-empty word placed by the generator is
found by the solver over the same word list - only the degenerate empty word
escapes the solver (see the counterexample); (2) no false positives: every
FoundWord of findAllWords carries the uppercase of some member of the word
list. -/
theorem claim_C2_solver_recall :
    (∀ (rows cols : Nat) (ws : List JStr) (rand : List (List Attempt))
       (fillRand : Nat → Nat → Fin 26) (L : WordLocation),
      L ∈ (generate rows cols ws rand fillRand).words →
      L.word ≠ [] →
      ∃ F ∈ findAllWords (generate rows cols ws rand fillRand).grid ws,
        F.word = L.word) ∧
    (∀ (g : Grid) (ws : List JStr) (F : FoundWord),
      F ∈ findAllWords g ws → ∃ w ∈ ws, F.word = upper w) := by
  constructor
  · intro rows cols ws rand fillRand L hL hnonempty
    obtain ⟨hwf, hall⟩ := generate_inv rows cols ws rand fillRand
    obtain ⟨hok, ⟨w0, hw0, hw0u⟩, _, _⟩ := hall L hL
    obtain ⟨d, hendp, hcellsP⟩ := hok
    have hupper : upper L.word = L.word := by
      rw [hw0u, upper_idem]
    exact findAllWords_contains _ ws rows cols hwf L.word
      L.start.row L.start.col d hupper ⟨w0, hw0, hw0u.symm⟩ hnonempty hcellsP
  · intro g ws F hF
    unfold findAllWords at hF
    revert F hF
    refine foldl_preserve
      (fun (s : SolveState) => ∀ F ∈ s.sols, ∃ w ∈ ws, F.word = upper w)
      _ (fun s r hs => ?_) _ _
      (by intro F hF; exact absurd hF (List.not_mem_nil F))
    refine foldl_preserve
      (fun (s : SolveState) => ∀ F ∈ s.sols, ∃ w ∈ ws, F.word = upper w)
      _ (fun s' c hs' => ?_) _ _ hs
    exact dfsAll_solsFromWords g ws (solverRows g) (solverCols g)
      _ _ _ _ _ _ s' hs'

/-- Witness for C2 (amended) at a concrete run: CAT placed on a 3x3 grid is
found by the solver. -/
theorem claim_C2_solver_recall_witness :
    ∃ F ∈ findAllWords (generate 3 3 [[99, 97, 116]] [[(.HORIZONTAL, 0, 0)]]
      (fun _ _ => (0 : Fin 26))).grid [[99, 97, 116]],
      F.word = ([67, 65, 84] : JStr) :=
  claim_C2_solver_recall.1 3 3 [[99, 97, 116]] [[(.HORIZONTAL, 0, 0)]]
    (fun _ _ => (0 : Fin 26)) ⟨[67, 65, 84], ⟨0, 0⟩, ⟨0, 2⟩⟩
    (by decide) (by decide)
